import Mathlib

/-!
# Marabou: branching heuristics and ACAS activation case splits

A shallow embedding of

* `src/engine/BranchingHeuristics.{h,cpp}`: the score table, the ordered set of
  `(score, constraint)` pairs, and the three member functions working on them;
* `AcasNeuralNetwork::getActivationFunction` of
  `src/input_parsers/AcasNeuralNetwork.cpp`: the decoder of a neuron's
  activation string into a `DisjunctionConstraint`.

Conventions of the embedding.

* A `PiecewiseLinearConstraint *` is its address, a natural number.
* A `double` is a rational number (the finite values); only comparison,
  negation and storage of doubles occur in the embedded code.
* `Map<K, V>` (a `std::map`) is a list of entries in strictly increasing key
  order; `Set<T>` (a `std::set`) is a list in strictly increasing order.
* `ASSERT( e )` aborts the call when `e` is false; the state at the abort is
  kept in the outcome.
* `exit( 1 )` after the error message is an error result carrying what the
  message prints.
-/

namespace Marabou

/-! ## BranchingHeuristics -/

/-- The address of a `PiecewiseLinearConstraint`. -/
abbrev Constraint := Nat

/-- The order of `std::pair<double, PiecewiseLinearConstraint *>`: by score,
then by address. -/
def pairLt (p q : ℚ × Constraint) : Prop :=
  p.1 < q.1 ∨ (p.1 = q.1 ∧ p.2 < q.2)

instance (p q : ℚ × Constraint) : Decidable (pairLt p q) := by
  unfold pairLt; exact inferInstance

/-- `Map::operator[]` followed by an assignment, on
`Map<PiecewiseLinearConstraint *, double>`: the entry of `k` is created or
overwritten, the keys stay in increasing order. -/
def mapAssign : List (Constraint × ℚ) → Constraint → ℚ → List (Constraint × ℚ)
  | [], k, v => [(k, v)]
  | (k', v') :: rest, k, v =>
    if k < k' then (k, v) :: (k', v') :: rest
    else if k = k' then (k, v) :: rest
    else (k', v') :: mapAssign rest k v

/-- `Map::exists`. -/
def mapExists (m : List (Constraint × ℚ)) (k : Constraint) : Bool :=
  m.any (fun e => e.1 == k)

/-- The value stored under a key, when there is one (`Map::get`). -/
def mapGet (m : List (Constraint × ℚ)) (k : Constraint) : Option ℚ :=
  (m.find? (fun e => e.1 == k)).map Prod.snd

/-- `Set::insert` on `Set<std::pair<double, PiecewiseLinearConstraint *>>`:
a pair already present is not inserted again. -/
def setInsert : List (ℚ × Constraint) → ℚ × Constraint → List (ℚ × Constraint)
  | [], p => [p]
  | q :: rest, p =>
    if pairLt p q then p :: q :: rest
    else if p = q then q :: rest
    else q :: setInsert rest p

/-- The two data members of `BranchingHeuristics` that the member functions
work on (`_engine` only supplies the constraint list, an argument here). -/
structure BranchingHeuristics where
  /-- `_constraintToScore`: mapping from a constraint to its score. -/
  constraintToScore : List (Constraint × ℚ)
  /-- `_scoreConstraintPairs`: tree set of (score, constraint) pairs. -/
  scoreConstraintPairs : List (ℚ × Constraint)
  deriving DecidableEq, Repr

/-- The object right after its constructor ran: both containers empty. -/
def BranchingHeuristics.empty : BranchingHeuristics :=
  { constraintToScore := [], scoreConstraintPairs := [] }

/-- How a call of a member function ends. -/
inductive Outcome (α : Type) where
  /-- The call returned `value`, leaving the object in `state`. -/
  | returned (value : α) (state : BranchingHeuristics)
  /-- An `ASSERT` failed with the object in `state`. -/
  | assertionFailed (state : BranchingHeuristics)
  /-- The call dereferenced `begin()` of an empty set. -/
  | undefinedBehaviour (state : BranchingHeuristics)
  deriving DecidableEq, Repr

/-- Modelled from the spec: the `ASSERT` macro (`Debug.h` is not among the
sources). A violated precondition is a fatal failure of the call: nothing
after the assertion runs and no value is returned. -/
def ASSERT {α : Type} (condition : Bool) (st : BranchingHeuristics)
    (continuation : Outcome α) : Outcome α :=
  if condition then continuation else .assertionFailed st

/-- One iteration of the loop of `BranchingHeuristics::initialize`. -/
def initializeStep (st : BranchingHeuristics) (constraint : Constraint) :
    BranchingHeuristics :=
  { constraintToScore := mapAssign st.constraintToScore constraint 1
    scoreConstraintPairs := setInsert st.scoreConstraintPairs (1, constraint) }

/-- `BranchingHeuristics::initialize`; `constraints` is what
`_engine->getPiecewiseLinearConstraints()` returns. -/
def BranchingHeuristics.initialize (st : BranchingHeuristics)
    (constraints : List Constraint) : BranchingHeuristics :=
  constraints.foldl initializeStep st

/-- `BranchingHeuristics::updateScore`. -/
def BranchingHeuristics.updateScore (st : BranchingHeuristics)
    (constraint : Constraint) (score : ℚ) : Outcome Unit :=
  ASSERT (mapExists st.constraintToScore constraint) st <|
    .returned () { st with
      constraintToScore := mapAssign st.constraintToScore constraint score }

/-- `BranchingHeuristics::pickMaxScore`. -/
def BranchingHeuristics.pickMaxScore (st : BranchingHeuristics) :
    Outcome Constraint :=
  ASSERT (!st.constraintToScore.isEmpty) st <|
    match st.scoreConstraintPairs with
    | [] => .undefinedBehaviour st
    | p :: _ => .returned p.2 st

/-- The constraints tracked by the object: the keys of the score table. -/
def BranchingHeuristics.tracked (st : BranchingHeuristics) : List Constraint :=
  st.constraintToScore.map Prod.fst

/-- The current score of a constraint in the score table. -/
def BranchingHeuristics.score (st : BranchingHeuristics) (c : Constraint) :
    Option ℚ :=
  mapGet st.constraintToScore c

/-- The states the object can be in: the constructed object, then any
calls of `initialize`, any successful calls of `updateScore` and any
returning calls of `pickMaxScore`. -/
inductive Reachable : BranchingHeuristics → Prop where
  | constructed : Reachable BranchingHeuristics.empty
  | initialized {st : BranchingHeuristics} (constraints : List Constraint) :
      Reachable st → Reachable ( BranchingHeuristics.initialize st constraints)
  | updated {st st' : BranchingHeuristics} (c : Constraint) (s : ℚ) :
      Reachable st → st.updateScore c s = .returned () st' → Reachable st'
  | picked {st st' : BranchingHeuristics} (c : Constraint) :
      Reachable st → st.pickMaxScore = .returned c st' → Reachable st'

/-- A call of `BranchingHeuristics::initialize` as an outcome: the body
(lines 23-32) holds no `ASSERT` and no other exit, so the call returns once
the loop over the constraints is done. -/
def initializeOutcome (st : BranchingHeuristics) (constraints : List Constraint) :
    Outcome Unit :=
  .returned () ( BranchingHeuristics.initialize st constraints)

/-- A sequence of `updateScore( c, s )` calls, each made on the object as the
call before left it; `none` when one of the calls does not return. -/
def updateScores : BranchingHeuristics → List (Constraint × ℚ) → Option BranchingHeuristics
  | st, [] => some st
  | st, (c, s) :: rest =>
    match st.updateScore c s with
    | .returned _ st' => updateScores st' rest
    | _ => none

/-! ## AcasNeuralNetwork::getActivationFunction -/

/-- `Tightening::BoundType`. -/
inductive BoundType where
  | LB
  | UB
  deriving DecidableEq, Repr

/-- Modelled from the spec: `Tightening( variable, value, type )`
(`Tightening.h` is not among the sources), a bound on one variable. -/
structure Tightening where
  var : Nat
  value : ℚ
  type : BoundType
  deriving DecidableEq, Repr

/-- Modelled from the spec: `Equation::Addend( coefficient, variable )`
(`Equation.h` is not among the sources). -/
structure Addend where
  coefficient : ℚ
  var : Nat
  deriving DecidableEq, Repr

/-- Modelled from the spec: an `Equation` of type `EQ` (`Equation.h` is not
among the sources), its ordered addends and its scalar. -/
structure Equation where
  addends : List Addend
  scalar : ℚ
  deriving DecidableEq, Repr

/-- A default-constructed `Equation`. -/
def Equation.new : Equation := { addends := [], scalar := 0 }

/-- `Equation::addAddend`: appends to the list of addends. -/
def Equation.addAddend (eq : Equation) (coefficient : ℚ) (var : Nat) : Equation :=
  { eq with addends := eq.addends ++ [⟨coefficient, var⟩] }

/-- `Equation::setScalar`. -/
def Equation.setScalar (eq : Equation) (scalar : ℚ) : Equation :=
  { eq with scalar := scalar }

/-- Modelled from the spec: `PiecewiseLinearCaseSplit`
(`PiecewiseLinearCaseSplit.h` is not among the sources), its bound
tightenings and its equations. -/
structure PiecewiseLinearCaseSplit where
  bounds : List Tightening
  equations : List Equation
  deriving DecidableEq, Repr

/-- A default-constructed `PiecewiseLinearCaseSplit`. -/
def PiecewiseLinearCaseSplit.new : PiecewiseLinearCaseSplit :=
  { bounds := [], equations := [] }

/-- `PiecewiseLinearCaseSplit::storeBoundTightening`. -/
def PiecewiseLinearCaseSplit.storeBoundTightening (split : PiecewiseLinearCaseSplit)
    (t : Tightening) : PiecewiseLinearCaseSplit :=
  { split with bounds := split.bounds ++ [t] }

/-- `PiecewiseLinearCaseSplit::addEquation`. -/
def PiecewiseLinearCaseSplit.addEquation (split : PiecewiseLinearCaseSplit)
    (eq : Equation) : PiecewiseLinearCaseSplit :=
  { split with equations := split.equations ++ [eq] }

/-- Modelled from the spec: `DisjunctionConstraint( splits )`
(`DisjunctionConstraint.h` is not among the sources), the ordered list of its
case splits. -/
structure DisjunctionConstraint where
  disjuncts : List PiecewiseLinearCaseSplit
  deriving DecidableEq, Repr

/-- Modelled from the spec: `NLR::NeuronIndex` (`NeuronIndex.h` is not among
the sources), a layer and a position in the layer, both `unsigned`. -/
structure NeuronIndex where
  layer : Nat
  neuron : Nat
  deriving DecidableEq, Repr

/-- Conversion of an `int` argument to `unsigned` (32 bits). -/
def toUnsigned (x : Int) : Nat := (x % 2 ^ 32).toNat

/-- How `getActivationFunction` can end without returning a constraint. -/
inductive DecodeFailure where
  /-- "Error! Activation function doesn't exist for <layer,neuron>", `exit( 1 )`. -/
  | missingActivation (layer neuron : Int)
  /-- "Error! Malformed activation function string: text", `exit( 1 )`. -/
  | malformedActivation (text : String)
  /-- The token iterator was dereferenced at or after `end()`. -/
  | readPastEnd
  /-- The loop of the embedding was given too few iterations. -/
  | outOfFuel
  deriving DecidableEq, Repr

deriving instance DecidableEq for Except

/-- The body of the loop after its four token reads (lines 143-165): the
case split of one region. `atof` is the C library's conversion. -/
def regionSplit (atof : String → ℚ) (b f : Nat)
    (lbString ubString coefficient scalar : String) : PiecewiseLinearCaseSplit :=
  let split := PiecewiseLinearCaseSplit.new
  let split :=
    if lbString ≠ "-infty" then split.storeBoundTightening ⟨b, atof lbString, .LB⟩
    else split
  let split :=
    if ubString ≠ "infty" then split.storeBoundTightening ⟨b, atof ubString, .UB⟩
    else split
  let eq := Equation.new
  let eq := eq.addAddend 1 f
  let eq := eq.addAddend (-atof coefficient) b
  let eq := eq.setScalar (atof scalar)
  split.addEquation eq

/-- The local variables of the loop: `count`, the position of the iterator
`it` in `tokens`, and `splits`. -/
structure LoopState where
  count : Nat
  it : Nat
  splits : List PiecewiseLinearCaseSplit
  deriving DecidableEq, Repr

/-- One iteration of the `while` loop (lines 136-165); `none` when one of
the four reads `*it++` is not inside `tokens`. -/
def loopBody (atof : String → ℚ) (tokens : List String) (b f : Nat)
    (st : LoopState) : Option LoopState :=
  match tokens[st.it]?, tokens[st.it + 1]?, tokens[st.it + 2]?, tokens[st.it + 3]? with
  | some lbString, some ubString, some coefficient, some scalar =>
    some { count := st.count + 4
           it := st.it + 4
           splits := st.splits ++ [regionSplit atof b f lbString ubString coefficient scalar] }
  | _, _, _, _ => none

/-- The `while ( count < tokens.size() )` loop, run for at most `fuel`
iterations. -/
def regionLoop (atof : String → ℚ) (tokens : List String) (b f : Nat) :
    Nat → LoopState → Except DecodeFailure LoopState
  | fuel, st =>
    if st.count < tokens.length then
      match fuel with
      | 0 => .error .outOfFuel
      | fuel + 1 =>
        match loopBody atof tokens b f st with
        | none => .error .readPastEnd
        | some st' => regionLoop atof tokens b f fuel st'
    else
      .ok st

/-- `AcasNeuralNetwork::getActivationFunction`. `activationInformation` is
`_network->_activationInformation`, `tokenize` is `String::tokenize( "," )`
and `atof` the C library's conversion. Every iteration of the loop adds 4 to
`count`, so `tokens.size()` iterations are enough fuel. -/
def getActivationFunction (tokenize : String → List String) (atof : String → ℚ)
    (activationInformation : NeuronIndex → Option String)
    (layer neuron : Int) (b f : Nat) : Except DecodeFailure DisjunctionConstraint :=
  let index : NeuronIndex := ⟨toUnsigned (layer - 1), toUnsigned neuron⟩
  match activationInformation index with
  | none => .error (.missingActivation layer neuron)
  | some text =>
    let tokens := tokenize text
    if tokens.length % 4 ≠ 0 then
      .error (.malformedActivation text)
    else
      match regionLoop atof tokens b f tokens.length ⟨0, 0, []⟩ with
      | .error e => .error e
      | .ok st => .ok ⟨st.splits⟩

/-- Modelled from the spec: when an assignment of values to the variables
satisfies an `Equation` (`Equation.h` is not among the sources); the spec
stores an equation as `Σ coefficient·variable = scalar`. -/
def Equation.holds (eq : Equation) (assignment : Nat → ℚ) : Prop :=
  (eq.addends.map (fun a => a.coefficient * assignment a.var)).sum = eq.scalar

/-- The case splits of a token list taken four tokens at a time. -/
def regions (atof : String → ℚ) (b f : Nat) : List String → List PiecewiseLinearCaseSplit
  | lbString :: ubString :: coefficient :: scalar :: rest =>
    regionSplit atof b f lbString ubString coefficient scalar :: regions atof b f rest
  | _ => []

/-! ### Concrete library functions for evaluating examples -/

/-- Splitting of a character list at `sep`, dropping empty pieces, as the
`strtok` loop of `String::tokenize` does; `cur` is the piece being read. -/
def splitAt (sep : Char) : List Char → List Char → List String
  | [], cur => if cur = [] then [] else [String.mk cur]
  | c :: cs, cur =>
    if c = sep then
      if cur = [] then splitAt sep cs [] else String.mk cur :: splitAt sep cs []
    else splitAt sep cs (cur ++ [c])

/-- An instance of `String::tokenize( "," )`. -/
def tokenizeComma (text : String) : List String := splitAt ',' text.toList []

/-- The digits at the front of a character list, read as a natural number
continuing `acc`, the number of digits read and the characters left. -/
def readDigits : List Char → Nat → Nat → Nat × Nat × List Char
  | [], acc, n => (acc, n, [])
  | c :: cs, acc, n =>
    if c.isDigit then readDigits cs (10 * acc + (c.toNat - 48)) (n + 1)
    else (acc, n, c :: cs)

/-- The unsigned decimal number at the front of a character list: digits,
then optionally a point and digits. -/
def readUnsigned (cs : List Char) : ℚ :=
  let whole := readDigits cs 0 0
  match whole.2.2 with
  | [] => (whole.1 : ℚ)
  | c :: rest =>
    if c = '.' then
      let all := readDigits rest whole.1 0
      if all.2.1 = 0 then (all.1 : ℚ) else (all.1 : ℚ) / (10 : ℚ) ^ all.2.1
    else (whole.1 : ℚ)

/-- An instance of `atof` on plain decimal tokens: an optional sign, then
digits with an optional fraction; what follows is ignored and a token with
no number at its front converts to 0. -/
def atofDecimal (token : String) : ℚ :=
  match token.toList with
  | [] => 0
  | c :: cs =>
    if c = '-' then -readUnsigned cs
    else if c = '+' then readUnsigned cs
    else readUnsigned (c :: cs)

/-- The ordered set holds the pair `(1, c)` for every tracked `c` and
nothing else. -/
def PairsFrozen (st : BranchingHeuristics) : Prop :=
  ∀ p : ℚ × Constraint, p ∈ st.scoreConstraintPairs ↔ p.1 = 1 ∧ p.2 ∈ st.tracked

/-! ### Concrete inputs for evaluating examples -/

/-- The object after `initialize` over the constraints at addresses 4 and 2. -/
def twoTracked : BranchingHeuristics :=
  BranchingHeuristics.initialize .empty [4, 2]

/-- An activation table with three entries: a ReLU for neuron 0 of layer 0,
one affine region `f = 2b + 3` on `[-1, 1]` for neuron 1, and a string of
five tokens for neuron 2. -/
def sampleInformation (index : NeuronIndex) : Option String :=
  if index = ⟨0, 0⟩ then some "-infty,0,0,0,0,infty,1,0"
  else if index = ⟨0, 1⟩ then some "-1,1,2,3"
  else if index = ⟨0, 2⟩ then some "0,1,2,3,4"
  else none

/-- The object after `initialize` over the constraints 5, 3 and 8: three
tracked constraints, all of score 1. -/
def threeTied : BranchingHeuristics :=
  BranchingHeuristics.initialize .empty [5, 3, 8]

/-- The object `twoTracked` after `updateScore( 4, 9 )`. -/
def twoTrackedUpdated : BranchingHeuristics :=
  { constraintToScore := [(2, 1), (4, 9)], scoreConstraintPairs := [(1, 2), (1, 4)] }

/-- Modelled from the spec: when an assignment satisfies a `Tightening`
(`Tightening.h` is not among the sources), a lower or an upper bound on the
value of its variable. -/
def Tightening.holds (t : Tightening) (assignment : Nat → ℚ) : Prop :=
  match t.type with
  | .LB => t.value ≤ assignment t.var
  | .UB => assignment t.var ≤ t.value

/-- Modelled from the spec: when an assignment satisfies a case split
(`PiecewiseLinearCaseSplit.h` is not among the sources): all its tightenings
and all its equations hold simultaneously. -/
def PiecewiseLinearCaseSplit.holds (split : PiecewiseLinearCaseSplit)
    (assignment : Nat → ℚ) : Prop :=
  (∀ t ∈ split.bounds, t.holds assignment) ∧ (∀ e ∈ split.equations, e.holds assignment)

/-- A character list without its leading sign, when it has one. -/
def dropSign : List Char → List Char
  | [] => []
  | c :: cs => if c == '-' || c == '+' then cs else c :: cs

/-- An exponent part or nothing: `e` or `E`, an optional sign, digits. -/
def isExponent : List Char → Bool
  | [] => true
  | c :: cs =>
    (c == 'e' || c == 'E') && !(dropSign cs).isEmpty && (dropSign cs).all Char.isDigit

/-- Modelled from the spec: a token is a valid decimal number when it is an
optional sign, digits with an optional point (at least one digit in all) and
an optional exponent, and nothing else. -/
def isDecimalToken (token : String) : Bool :=
  let body := dropSign token.toList
  let whole := body.takeWhile Char.isDigit
  match body.dropWhile Char.isDigit with
  | [] => !whole.isEmpty
  | c :: more =>
    if c == '.' then
      !(whole.isEmpty && (more.takeWhile Char.isDigit).isEmpty)
        && isExponent (more.dropWhile Char.isDigit)
    else !whole.isEmpty && isExponent (c :: more)

/-- A second activation table: for neuron 0 of layer 0 one region whose
coefficient token is the letter x, for neuron 1 the empty string, for neuron 2
two regions with the separated ranges up to -1 and from 1, and for neuron 5 of
layer 2 the identity on `[0, 1]`. -/
def otherInformation (index : NeuronIndex) : Option String :=
  if index = ⟨0, 0⟩ then some "0,1,x,3"
  else if index = ⟨0, 1⟩ then some ""
  else if index = ⟨0, 2⟩ then some "-infty,-1,0,0,1,infty,1,0"
  else if index = ⟨2, 5⟩ then some "0,1,1,0"
  else none

/-! ## Lemmas on the containers -/

theorem mem_keys_mapAssign (m : List (Constraint × ℚ)) (k : Constraint) (v : ℚ)
    (c : Constraint) :
    c ∈ (mapAssign m k v).map Prod.fst ↔ c = k ∨ c ∈ m.map Prod.fst := by
  induction m with
  | nil => simp [mapAssign]
  | cons e rest ih =>
    obtain ⟨k', v'⟩ := e
    unfold mapAssign
    split_ifs with h1 h2
    · simp
    · subst h2; simp
    · simp only [List.map_cons, List.mem_cons, ih]
      tauto

theorem mapGet_mapAssign_self (m : List (Constraint × ℚ)) (k : Constraint) (v : ℚ) :
    mapGet (mapAssign m k v) k = some v := by
  induction m with
  | nil => simp [mapAssign, mapGet]
  | cons e rest ih =>
    obtain ⟨k', v'⟩ := e
    unfold mapAssign
    split_ifs with h1 h2
    · simp [mapGet]
    · simp [mapGet]
    · have hne : (k' == k) = false := by
        simpa using fun h => h2 h.symm
      simpa [mapGet, List.find?_cons, hne] using ih

theorem mapGet_mapAssign_other (m : List (Constraint × ℚ)) (k : Constraint) (v : ℚ)
    (c : Constraint) (hc : c ≠ k) :
    mapGet (mapAssign m k v) c = mapGet m c := by
  have hkc : (k == c) = false := by simpa using fun h => hc h.symm
  induction m with
  | nil => simp [mapAssign, mapGet, List.find?_cons, hkc]
  | cons e rest ih =>
    obtain ⟨k', v'⟩ := e
    unfold mapAssign
    split_ifs with h1 h2
    · simp [mapGet, List.find?_cons, hkc]
    · subst h2; simp [mapGet, List.find?_cons, hkc]
    · by_cases hk' : k' = c
      · simp [mapGet, List.find?_cons, hk']
      · have hf : (k' == c) = false := by simpa using hk'
        simpa [mapGet, List.find?_cons, hf] using ih

theorem mapExists_iff (m : List (Constraint × ℚ)) (k : Constraint) :
    mapExists m k = true ↔ k ∈ m.map Prod.fst := by
  simp only [mapExists, List.any_eq_true, List.mem_map, beq_iff_eq]

theorem mapGet_isSome_iff (m : List (Constraint × ℚ)) (k : Constraint) :
    (mapGet m k).isSome = true ↔ k ∈ m.map Prod.fst := by
  induction m with
  | nil => simp [mapGet]
  | cons e rest ih =>
    obtain ⟨k', v'⟩ := e
    by_cases hk : k' = k
    · simp [mapGet, List.find?_cons, hk]
    · have hf : (k' == k) = false := by simpa using hk
      have hne : ¬ k = k' := fun h => hk h.symm
      simp [mapGet, List.find?_cons, hf, hne] at ih ⊢

theorem keys_sorted_mapAssign (m : List (Constraint × ℚ)) (k : Constraint) (v : ℚ)
    (hm : m.Pairwise (fun x y => x.1 < y.1)) :
    (mapAssign m k v).Pairwise (fun x y => x.1 < y.1) := by
  induction m with
  | nil => simp [mapAssign]
  | cons e rest ih =>
    obtain ⟨k', v'⟩ := e
    rw [List.pairwise_cons] at hm
    unfold mapAssign
    split_ifs with h1 h2
    · refine List.pairwise_cons.2 ⟨?_, List.pairwise_cons.2 hm⟩
      intro x hx
      rcases List.mem_cons.1 hx with rfl | hx
      · exact h1
      · exact lt_trans h1 (hm.1 x hx)
    · subst h2
      exact List.pairwise_cons.2 ⟨fun x hx => hm.1 x hx, hm.2⟩
    · refine List.pairwise_cons.2 ⟨?_, ih hm.2⟩
      intro x hx
      have hx' : x.1 ∈ (mapAssign rest k v).map Prod.fst := List.mem_map_of_mem _ hx
      rcases (mem_keys_mapAssign rest k v x.1).1 hx' with h | h
      · rw [h]; exact lt_of_le_of_ne (not_lt.1 h1) (fun h => h2 h.symm)
      · obtain ⟨y, hy, hxy⟩ := List.mem_map.1 h
        have := hm.1 y hy
        rw [hxy] at this
        exact this

theorem mem_setInsert (s : List (ℚ × Constraint)) (p q : ℚ × Constraint) :
    q ∈ setInsert s p ↔ q = p ∨ q ∈ s := by
  induction s with
  | nil => simp [setInsert]
  | cons e rest ih =>
    unfold setInsert
    split_ifs with h1 h2
    · simp
    · subst h2; simp
    · simp only [List.mem_cons, ih]
      tauto

theorem pairLt_trans {p q r : ℚ × Constraint} (h1 : pairLt p q) (h2 : pairLt q r) :
    pairLt p r := by
  unfold pairLt at *
  rcases h1 with h1 | ⟨h1, h1'⟩ <;> rcases h2 with h2 | ⟨h2, h2'⟩
  · exact Or.inl (lt_trans h1 h2)
  · exact Or.inl (h2 ▸ h1)
  · exact Or.inl (h1 ▸ h2)
  · exact Or.inr ⟨h1.trans h2, lt_trans h1' h2'⟩

theorem pairLt_of_not {p q : ℚ × Constraint} (h1 : ¬ pairLt p q) (h2 : p ≠ q) :
    pairLt q p := by
  unfold pairLt at *
  push_neg at h1
  rcases lt_or_eq_of_le h1.1 with h | h
  · exact Or.inl h
  · refine Or.inr ⟨h, lt_of_le_of_ne (h1.2 h.symm) ?_⟩
    intro h'
    exact h2 (Prod.ext h.symm h'.symm)

theorem sorted_setInsert (s : List (ℚ × Constraint)) (p : ℚ × Constraint)
    (hs : s.Pairwise pairLt) : (setInsert s p).Pairwise pairLt := by
  induction s with
  | nil => simp [setInsert]
  | cons e rest ih =>
    rw [List.pairwise_cons] at hs
    unfold setInsert
    split_ifs with h1 h2
    · refine List.pairwise_cons.2 ⟨?_, List.pairwise_cons.2 hs⟩
      intro x hx
      rcases List.mem_cons.1 hx with rfl | hx
      · exact h1
      · exact pairLt_trans h1 (hs.1 x hx)
    · exact List.pairwise_cons.2 hs
    · refine List.pairwise_cons.2 ⟨?_, ih hs.2⟩
      intro x hx
      rcases (mem_setInsert rest p x).1 hx with rfl | h
      · exact pairLt_of_not h1 h2
      · exact hs.1 x h

/-! ## Lemmas on BranchingHeuristics -/

theorem initialize_nil (st : BranchingHeuristics) :
    BranchingHeuristics.initialize st [] = st := rfl

theorem initialize_cons (st : BranchingHeuristics) (c : Constraint)
    (cs : List Constraint) :
    BranchingHeuristics.initialize st (c :: cs)
      = BranchingHeuristics.initialize (initializeStep st c) cs := rfl

theorem initialize_tracked (cs : List Constraint) (st : BranchingHeuristics)
    (c : Constraint) :
    c ∈ ( BranchingHeuristics.initialize st cs).tracked ↔ c ∈ cs ∨ c ∈ st.tracked := by
  induction cs generalizing st with
  | nil => simp [initialize_nil]
  | cons d rest ih =>
    have h := ih (initializeStep st d)
    rw [initialize_cons, h]
    simp only [BranchingHeuristics.tracked, initializeStep, mem_keys_mapAssign,
      List.mem_cons]
    tauto

theorem initialize_score (cs : List Constraint) (st : BranchingHeuristics)
    (c : Constraint) :
    ( BranchingHeuristics.initialize st cs).score c
      = if c ∈ cs then some 1 else st.score c := by
  induction cs generalizing st with
  | nil => simp [initialize_nil]
  | cons d rest ih =>
    have h := ih (initializeStep st d)
    rw [initialize_cons, h]
    by_cases h1 : c ∈ rest
    · simp [h1]
    · by_cases h2 : c = d
      · subst h2
        simp [h1, BranchingHeuristics.score, initializeStep, mapGet_mapAssign_self]
      · simp [h1, h2, BranchingHeuristics.score, initializeStep,
          mapGet_mapAssign_other _ _ _ _ h2]

theorem initialize_pairs (cs : List Constraint) (st : BranchingHeuristics)
    (p : ℚ × Constraint) :
    p ∈ ( BranchingHeuristics.initialize st cs).scoreConstraintPairs
      ↔ (∃ c ∈ cs, p = (1, c)) ∨ p ∈ st.scoreConstraintPairs := by
  induction cs generalizing st with
  | nil => simp [initialize_nil]
  | cons d rest ih =>
    have h := ih (initializeStep st d)
    rw [initialize_cons, h]
    simp only [initializeStep, mem_setInsert, List.mem_cons, exists_eq_or_imp]
    clear h ih
    generalize (∃ c ∈ rest, p = (1, c)) = inRest
    tauto

theorem initialize_sorted (cs : List Constraint) (st : BranchingHeuristics)
    (h1 : st.constraintToScore.Pairwise (fun x y => x.1 < y.1))
    (h2 : st.scoreConstraintPairs.Pairwise pairLt) :
    ( BranchingHeuristics.initialize st cs).constraintToScore.Pairwise
        (fun x y => x.1 < y.1)
      ∧ ( BranchingHeuristics.initialize st cs).scoreConstraintPairs.Pairwise pairLt := by
  induction cs generalizing st with
  | nil => exact ⟨h1, h2⟩
  | cons d rest ih =>
    have h := ih (initializeStep st d) (keys_sorted_mapAssign _ _ _ h1)
      (sorted_setInsert _ _ h2)
    rw [initialize_cons]
    exact h

theorem pickMaxScore_state {st st' : BranchingHeuristics} {c : Constraint}
    (h : st.pickMaxScore = .returned c st') : st' = st := by
  unfold BranchingHeuristics.pickMaxScore ASSERT at h
  split_ifs at h
  split at h
  · cases h
  · injection h with _ hst
    exact hst.symm

theorem pairsFrozen_of_reachable {st : BranchingHeuristics} (h : Reachable st) :
    PairsFrozen st := by
  induction h with
  | constructed => intro p; simp [BranchingHeuristics.empty, BranchingHeuristics.tracked]
  | initialized cs _ ih =>
    intro p
    rw [initialize_pairs, initialize_tracked, ih p]
    constructor
    · rintro (⟨c, hc, rfl⟩ | ⟨h1, h2⟩)
      · exact ⟨rfl, Or.inl hc⟩
      · exact ⟨h1, Or.inr h2⟩
    · rintro ⟨h1, h2 | h2⟩
      · exact Or.inl ⟨p.2, h2, Prod.ext h1 rfl⟩
      · exact Or.inr ⟨h1, h2⟩
  | @updated st0 st1 c s _ hstep ih =>
    intro p
    unfold BranchingHeuristics.updateScore ASSERT at hstep
    split_ifs at hstep with hex
    injection hstep with _ hst
    subst hst
    have hc : c ∈ st0.tracked := (mapExists_iff _ _).1 hex
    simp only [BranchingHeuristics.tracked, mem_keys_mapAssign]
    rw [ih p]
    simp only [BranchingHeuristics.tracked] at hc ⊢
    constructor
    · rintro ⟨h1, h2⟩; exact ⟨h1, Or.inr h2⟩
    · rintro ⟨h1, h2 | h2⟩
      · exact ⟨h1, h2 ▸ hc⟩
      · exact ⟨h1, h2⟩
  | @picked st0 st1 c _ hstep ih =>
    have hst : st1 = st0 := (pickMaxScore_state hstep).symm ▸ rfl
    rw [hst]
    exact ih

/-! ## Further lemmas on BranchingHeuristics -/

theorem mapAssign_idem (m : List (Constraint × ℚ)) (k : Constraint) (v : ℚ) :
    mapAssign (mapAssign m k v) k v = mapAssign m k v := by
  induction m with
  | nil => simp [mapAssign]
  | cons e rest ih =>
    obtain ⟨k', v'⟩ := e
    by_cases h1 : k < k'
    · simp [mapAssign, h1]
    · by_cases h2 : k = k'
      · simp [mapAssign, h2]
      · simp [mapAssign, h1, h2, ih]

theorem updateScore_of_tracked (st : BranchingHeuristics) (c : Constraint) (s : ℚ)
    (hc : c ∈ st.tracked) :
    st.updateScore c s
      = .returned () { st with constraintToScore := mapAssign st.constraintToScore c s } := by
  have : mapExists st.constraintToScore c = true := (mapExists_iff _ _).2 hc
  simp [BranchingHeuristics.updateScore, ASSERT, this]

theorem updateScore_returned {st st' : BranchingHeuristics} {c : Constraint} {s : ℚ}
    (h : st.updateScore c s = .returned () st') :
    c ∈ st.tracked
      ∧ st' = { st with constraintToScore := mapAssign st.constraintToScore c s } := by
  unfold BranchingHeuristics.updateScore ASSERT at h
  split_ifs at h with hex
  injection h with _ hst
  exact ⟨(mapExists_iff _ _).1 hex, hst.symm⟩

theorem updateScores_frame (updates : List (Constraint × ℚ)) :
    ∀ st st' : BranchingHeuristics, updateScores st updates = some st' →
      st'.scoreConstraintPairs = st.scoreConstraintPairs
        ∧ ∀ c, c ∈ st'.tracked ↔ c ∈ st.tracked := by
  induction updates with
  | nil =>
    intro st st' h
    simp only [updateScores, Option.some.injEq] at h
    subst h
    exact ⟨rfl, fun _ => Iff.rfl⟩
  | cons u rest ih =>
    intro st st' h
    obtain ⟨c, s⟩ := u
    unfold updateScores at h
    split at h
    · rename_i v st1 hstep
      obtain ⟨hc, hst1⟩ := updateScore_returned hstep
      obtain ⟨hp, ht⟩ := ih st1 st' h
      refine ⟨by rw [hp, hst1], fun c' => ?_⟩
      rw [ht c', hst1]
      simp only [BranchingHeuristics.tracked, mem_keys_mapAssign]
      constructor
      · rintro (h' | h')
        · exact h' ▸ hc
        · exact h'
      · exact Or.inr
    · cases h

theorem pickMaxScore_of_head (st : BranchingHeuristics) (c : Constraint)
    (p : ℚ × Constraint) (more : List (ℚ × Constraint)) (hc : c ∈ st.tracked)
    (hp : st.scoreConstraintPairs = p :: more) :
    st.pickMaxScore = .returned p.2 st := by
  obtain ⟨table, pairs⟩ := st
  cases table with
  | nil => simp [BranchingHeuristics.tracked] at hc
  | cons e rest =>
    simp only at hp
    subst hp
    simp [BranchingHeuristics.pickMaxScore, ASSERT]

theorem initialize_head (cs : List Constraint) (hne : cs ≠ []) :
    ∃ c more, c ∈ cs ∧ (∀ c' ∈ cs, c ≤ c')
      ∧ ( BranchingHeuristics.initialize .empty cs).scoreConstraintPairs = (1, c) :: more := by
  have hs := (initialize_sorted cs .empty List.Pairwise.nil List.Pairwise.nil).2
  have hmem : ∀ p, p ∈ ( BranchingHeuristics.initialize .empty cs).scoreConstraintPairs
      ↔ ∃ c ∈ cs, p = (1, c) := by
    intro p
    rw [initialize_pairs]
    simp [BranchingHeuristics.empty]
  obtain ⟨c0, hc0⟩ := List.exists_mem_of_ne_nil cs hne
  generalize ( BranchingHeuristics.initialize .empty cs).scoreConstraintPairs = pairs at hs hmem
  cases pairs with
  | nil => exact absurd ((hmem (1, c0)).2 ⟨c0, hc0, rfl⟩) (by simp)
  | cons p more =>
    obtain ⟨c, hc, hp⟩ := (hmem p).1 (by simp)
    subst hp
    refine ⟨c, more, hc, ?_, rfl⟩
    intro c' hc'
    rcases List.mem_cons.1 ((hmem (1, c')).2 ⟨c', hc', rfl⟩) with h | h
    · exact le_of_eq (Prod.ext_iff.1 h).2.symm
    · rcases (List.pairwise_cons.1 hs).1 _ h with h' | ⟨_, h'⟩
      · exact absurd h' (lt_irrefl _)
      · exact le_of_lt h'

theorem pickMaxScore_of_reachable (st : BranchingHeuristics) (h : Reachable st)
    (c : Constraint) (hc : c ∈ st.tracked) :
    ∃ c', st.pickMaxScore = .returned c' st ∧ c' ∈ st.tracked := by
  have hinv := pairsFrozen_of_reachable h
  have hmem : ((1 : ℚ), c) ∈ st.scoreConstraintPairs := (hinv (1, c)).2 ⟨rfl, hc⟩
  cases hpairs : st.scoreConstraintPairs with
  | nil => rw [hpairs] at hmem; simp at hmem
  | cons p more =>
    refine ⟨p.2, pickMaxScore_of_head st c p more hc hpairs, ?_⟩
    exact ((hinv p).1 (by rw [hpairs]; simp)).2

/-! ## Lemmas on the decoder loop -/

theorem regions_length (atof : String → ℚ) (b f : Nat) :
    ∀ tokens : List String, (regions atof b f tokens).length = tokens.length / 4
  | [] => by simp [regions]
  | [_] => by simp [regions]
  | [_, _] => by simp [regions]
  | [_, _, _] => by simp [regions]
  | _ :: _ :: _ :: _ :: rest => by
    simp only [regions, List.length_cons, regions_length atof b f rest]
    omega

theorem regions_getElem (atof : String → ℚ) (b f : Nat) (tokens : List String)
    (i : Nat) (hi : 4 * i + 3 < tokens.length) :
    ∃ lb ub c s, tokens[4 * i]? = some lb ∧ tokens[4 * i + 1]? = some ub
      ∧ tokens[4 * i + 2]? = some c ∧ tokens[4 * i + 3]? = some s
      ∧ (regions atof b f tokens)[i]? = some (regionSplit atof b f lb ub c s) := by
  induction i generalizing tokens with
  | zero =>
    match tokens, hi with
    | lb :: ub :: c :: s :: rest, _ => exact ⟨lb, ub, c, s, by simp [regions]⟩
  | succ j ih =>
    match tokens, hi with
    | lb :: ub :: c :: s :: rest, hi =>
      have hj : 4 * j + 3 < rest.length := by
        simp only [List.length_cons] at hi; omega
      obtain ⟨lb', ub', c', s', h0, h1, h2, h3, h4⟩ := ih rest hj
      refine ⟨lb', ub', c', s', ?_, ?_, ?_, ?_, ?_⟩
      · rw [← h0, show 4 * (j + 1) = 4 * j + 1 + 1 + 1 + 1 by ring]; simp
      · rw [← h1, show 4 * (j + 1) + 1 = 4 * j + 1 + 1 + 1 + 1 + 1 by ring]; simp
      · rw [← h2, show 4 * (j + 1) + 2 = 4 * j + 2 + 1 + 1 + 1 + 1 by ring]; simp
      · rw [← h3, show 4 * (j + 1) + 3 = 4 * j + 3 + 1 + 1 + 1 + 1 by ring]; simp
      · simpa [regions] using h4

theorem regionLoop_eq (atof : String → ℚ) (tokens : List String) (b f : Nat) (m : Nat) :
    ∀ (fuel : Nat) (st : LoopState), st.it = st.count →
      st.count + 4 * m = tokens.length → m ≤ fuel →
      regionLoop atof tokens b f fuel st
        = .ok ⟨tokens.length, tokens.length,
            st.splits ++ regions atof b f (tokens.drop st.count)⟩ := by
  induction m with
  | zero =>
    intro fuel st hit hcount _
    obtain ⟨count, pos, splits⟩ := st
    simp only at hit hcount
    have hc : count = tokens.length := by omega
    rw [hit]
    unfold regionLoop
    simp [hc, regions]
  | succ m ih =>
    intro fuel st hit hcount hfuel
    obtain ⟨count, pos, splits⟩ := st
    simp only at hit hcount
    rw [hit]
    clear hit pos
    obtain ⟨fuel, rfl⟩ : ∃ k, fuel = k + 1 := ⟨fuel - 1, by omega⟩
    have h0 : count < tokens.length := by omega
    have h1 : count + 1 < tokens.length := by omega
    have h2 : count + 2 < tokens.length := by omega
    have h3 : count + 3 < tokens.length := by omega
    have hdrop : tokens.drop count
        = tokens[count] :: tokens[count + 1] :: tokens[count + 2] :: tokens[count + 3]
            :: tokens.drop (count + 4) := by
      rw [List.drop_eq_getElem_cons h0, List.drop_eq_getElem_cons h1,
        List.drop_eq_getElem_cons h2, List.drop_eq_getElem_cons h3]
    have hbody : loopBody atof tokens b f ⟨count, count, splits⟩
        = some ⟨count + 4, count + 4, splits ++ [regionSplit atof b f tokens[count]
            tokens[count + 1] tokens[count + 2] tokens[count + 3]]⟩ := by
      simp [loopBody, List.getElem?_eq_getElem, h0, h1, h2, h3]
    unfold regionLoop
    simp only [h0, if_true, hbody]
    rw [ih fuel _ rfl (by simp only; omega) (by omega), hdrop]
    simp only [regions, List.append_assoc, List.singleton_append]

theorem getActivationFunction_ok (tokenize : String → List String) (atof : String → ℚ)
    (activationInformation : NeuronIndex → Option String) (layer neuron : Int)
    (b f : Nat) (text : String)
    (h1 : activationInformation ⟨toUnsigned (layer - 1), toUnsigned neuron⟩ = some text)
    (h2 : (tokenize text).length % 4 = 0) :
    getActivationFunction tokenize atof activationInformation layer neuron b f
      = .ok ⟨regions atof b f (tokenize text)⟩ := by
  have h := regionLoop_eq atof (tokenize text) b f ((tokenize text).length / 4)
    (tokenize text).length ⟨0, 0, []⟩ rfl (by simp only; omega) (by omega)
  simp [getActivationFunction, h1, h2, h]

theorem getActivationFunction_malformed (tokenize : String → List String)
    (atof : String → ℚ) (activationInformation : NeuronIndex → Option String)
    (layer neuron : Int) (b f : Nat) (text : String)
    (h1 : activationInformation ⟨toUnsigned (layer - 1), toUnsigned neuron⟩ = some text)
    (h2 : (tokenize text).length % 4 ≠ 0) :
    getActivationFunction tokenize atof activationInformation layer neuron b f
      = .error (.malformedActivation text) := by
  simp [getActivationFunction, h1, h2]

theorem getActivationFunction_missing (tokenize : String → List String)
    (atof : String → ℚ) (activationInformation : NeuronIndex → Option String)
    (layer neuron : Int) (b f : Nat)
    (h1 : activationInformation ⟨toUnsigned (layer - 1), toUnsigned neuron⟩ = none) :
    getActivationFunction tokenize atof activationInformation layer neuron b f
      = .error (.missingActivation layer neuron) := by
  simp [getActivationFunction, h1]

/-! ## The claims on BranchingHeuristics -/

/-- C1 (the code departs from the claim): after `initialize` over the
constraints 1 and 2 and `updateScore( 2, 5 )`, `pickMaxScore` returns
constraint 1, whose current score 1 is below the current score 5 of the
tracked constraint 2. -/
theorem pickMaxScore_stale_after_updateScore :
    BranchingHeuristics.updateScore ( BranchingHeuristics.initialize .empty [1, 2]) 2 5
        = .returned () ⟨[(1, 1), (2, 5)], [(1, 1), (1, 2)]⟩
      ∧ BranchingHeuristics.pickMaxScore ⟨[(1, 1), (2, 5)], [(1, 1), (1, 2)]⟩
        = .returned 1 ⟨[(1, 1), (2, 5)], [(1, 1), (1, 2)]⟩
      ∧ BranchingHeuristics.score ⟨[(1, 1), (2, 5)], [(1, 1), (1, 2)]⟩ 1 = some 1
      ∧ BranchingHeuristics.score ⟨[(1, 1), (2, 5)], [(1, 1), (1, 2)]⟩ 2 = some 5
      ∧ (1 : ℚ) < 5 := by
  decide

/-- C7 (the code departs from the claim): after `initialize` over the
constraint 7 and `updateScore( 7, 5 )` the score table maps 7 to 5 while the
ordered set still holds the pair `(1, 7)` and does not hold `(5, 7)`. -/
theorem updateScore_leaves_pairs_stale :
    BranchingHeuristics.updateScore ( BranchingHeuristics.initialize .empty [7]) 7 5
        = .returned () ⟨[(7, 5)], [(1, 7)]⟩
      ∧ BranchingHeuristics.score ⟨[(7, 5)], [(1, 7)]⟩ 7 = some 5
      ∧ ((5 : ℚ), 7) ∉ BranchingHeuristics.scoreConstraintPairs ⟨[(7, 5)], [(1, 7)]⟩
      ∧ ((1 : ℚ), 7) ∈ BranchingHeuristics.scoreConstraintPairs ⟨[(7, 5)], [(1, 7)]⟩ := by
  decide

/-- C8: after `initialize` over a constraint list, run on the freshly
constructed object, the keys of the score table are exactly the constraints of
the list (each once, in key order), every one of them has score 1, and the
ordered set holds exactly the pairs `(1, c)` for `c` in the list (each once,
in order). -/
theorem initialize_complete (constraints : List Constraint) :
    (∀ c, c ∈ ( BranchingHeuristics.initialize .empty constraints).tracked
        ↔ c ∈ constraints)
      ∧ (∀ c, c ∈ constraints →
          ( BranchingHeuristics.initialize .empty constraints).score c = some 1)
      ∧ (∀ c, c ∉ constraints →
          ( BranchingHeuristics.initialize .empty constraints).score c = none)
      ∧ ( BranchingHeuristics.initialize .empty constraints).constraintToScore.Pairwise
          (fun x y => x.1 < y.1)
      ∧ (∀ p, p ∈ ( BranchingHeuristics.initialize .empty constraints).scoreConstraintPairs
          ↔ ∃ c ∈ constraints, p = (1, c))
      ∧ ( BranchingHeuristics.initialize .empty constraints).scoreConstraintPairs.Pairwise
          pairLt := by
  have hs := initialize_sorted constraints .empty List.Pairwise.nil List.Pairwise.nil
  refine ⟨?_, ?_, ?_, hs.1, ?_, hs.2⟩
  · intro c
    rw [initialize_tracked]
    simp [BranchingHeuristics.empty, BranchingHeuristics.tracked]
  · intro c hc
    rw [initialize_score, if_pos hc]
  · intro c hc
    rw [initialize_score, if_neg hc]
    rfl
  · intro p
    rw [initialize_pairs]
    simp [BranchingHeuristics.empty]

/-- C9: `updateScore( c, s )` fails its assertion exactly when `c` is not a
key of the score table, and then the object is as it was before the call;
when `c` is a key the call returns, the score of `c` is `s`, every other
constraint keeps its score, the key set is the same and the ordered set is
untouched. -/
theorem updateScore_contract (st : BranchingHeuristics) (c : Constraint) (s : ℚ) :
    ((∀ st', st.updateScore c s ≠ .returned () st') ↔ c ∉ st.tracked)
      ∧ (c ∉ st.tracked → st.updateScore c s = .assertionFailed st)
      ∧ (c ∈ st.tracked → ∃ st', st.updateScore c s = .returned () st'
          ∧ st'.score c = some s
          ∧ (∀ c', c' ≠ c → st'.score c' = st.score c')
          ∧ (∀ c', c' ∈ st'.tracked ↔ c' ∈ st.tracked)
          ∧ st'.scoreConstraintPairs = st.scoreConstraintPairs) := by
  have hfail : c ∉ st.tracked → st.updateScore c s = .assertionFailed st := by
    intro hc
    have : ¬ mapExists st.constraintToScore c = true := fun h => hc ((mapExists_iff _ _).1 h)
    simp [BranchingHeuristics.updateScore, ASSERT, this]
  have hok : c ∈ st.tracked → st.updateScore c s
      = .returned () { st with constraintToScore := mapAssign st.constraintToScore c s } := by
    intro hc
    have : mapExists st.constraintToScore c = true := (mapExists_iff _ _).2 hc
    simp [BranchingHeuristics.updateScore, ASSERT, this]
  refine ⟨⟨?_, ?_⟩, hfail, ?_⟩
  · intro h hc
    exact h _ (hok hc)
  · intro hc st' h
    rw [hfail hc] at h
    cases h
  · intro hc
    refine ⟨_, hok hc, ?_, ?_, ?_, rfl⟩
    · exact mapGet_mapAssign_self _ _ _
    · intro c' hc'
      exact mapGet_mapAssign_other _ _ _ _ hc'
    · intro c'
      simp only [BranchingHeuristics.tracked, mem_keys_mapAssign]
      constructor
      · rintro (h | h)
        · exact h ▸ hc
        · exact h
      · exact Or.inr

/-- C10: in every state the object can reach, `pickMaxScore` does not
return exactly when no constraint is tracked, and it then fails its assertion;
with at least one tracked constraint it returns a tracked constraint and
leaves the object as it was. -/
theorem pickMaxScore_fails_iff_nothing_tracked (st : BranchingHeuristics)
    (h : Reachable st) :
    ((∀ c st', st.pickMaxScore ≠ .returned c st') ↔ st.tracked = [])
      ∧ (st.pickMaxScore = .assertionFailed st ↔ st.tracked = [])
      ∧ (st.tracked ≠ [] → ∃ c, st.pickMaxScore = .returned c st ∧ c ∈ st.tracked) := by
  have hinv := pairsFrozen_of_reachable h
  obtain ⟨table, pairs⟩ := st
  cases table with
  | nil =>
    simp [BranchingHeuristics.pickMaxScore, ASSERT, BranchingHeuristics.tracked]
  | cons e rest =>
    have hmem : ((1 : ℚ), e.1) ∈ pairs :=
      (hinv (1, e.1)).2 ⟨rfl, by simp [BranchingHeuristics.tracked]⟩
    cases pairs with
    | nil => simp at hmem
    | cons p more =>
      have hp : p.2 ∈ BranchingHeuristics.tracked ⟨e :: rest, p :: more⟩ :=
        ((hinv p).1 (by simp)).2
      have hret : BranchingHeuristics.pickMaxScore ⟨e :: rest, p :: more⟩
          = .returned p.2 ⟨e :: rest, p :: more⟩ := by
        simp [BranchingHeuristics.pickMaxScore, ASSERT]
      refine ⟨⟨?_, ?_⟩, ⟨?_, ?_⟩, ?_⟩
      · intro hno
        exact absurd hret (hno _ _)
      · intro hnil
        simp [BranchingHeuristics.tracked] at hnil
      · intro hfail
        rw [hret] at hfail
        cases hfail
      · intro hnil
        simp [BranchingHeuristics.tracked] at hnil
      · intro _
        exact ⟨p.2, hret, hp⟩

/-- C10 at a concrete state: after `initialize` over the constraints 4 and 2
the object is reachable, and `pickMaxScore` returns the tracked constraint 2. -/
theorem pickMaxScore_fails_iff_nothing_tracked_witness :
    Reachable twoTracked
      ∧ ((∀ c st', twoTracked.pickMaxScore ≠ .returned c st') ↔ twoTracked.tracked = [])
      ∧ (twoTracked.pickMaxScore = .assertionFailed twoTracked ↔ twoTracked.tracked = [])
      ∧ (twoTracked.tracked ≠ [] →
          ∃ c, twoTracked.pickMaxScore = .returned c twoTracked ∧ c ∈ twoTracked.tracked)
      ∧ twoTracked.pickMaxScore = .returned 2 twoTracked
      ∧ twoTracked.tracked = [2, 4] :=
  have hr : Reachable twoTracked := Reachable.initialized [4, 2] Reachable.constructed
  have ht := pickMaxScore_fails_iff_nothing_tracked twoTracked hr
  ⟨hr, ht.1, ht.2.1, ht.2.2, by decide, by decide⟩

/-! ## The claims on getActivationFunction -/

theorem holds_region_equation (c s : ℚ) (b f : Nat) (σ : Nat → ℚ) :
    (Equation.holds ⟨[⟨1, f⟩, ⟨-c, b⟩], s⟩ σ ↔ σ f - c * σ b = s)
      ∧ (Equation.holds ⟨[⟨1, f⟩, ⟨-c, b⟩], s⟩ σ ↔ σ f = c * σ b + s) := by
  simp only [Equation.holds, List.map_cons, List.map_nil, List.sum_cons, List.sum_nil]
  constructor
  · constructor <;> intro h <;> linarith
  · constructor <;> intro h <;> linarith

theorem regionSplit_equations (atof : String → ℚ) (b f : Nat) (lb ub c s : String) :
    (regionSplit atof b f lb ub c s).equations = [⟨[⟨1, f⟩, ⟨-atof c, b⟩], atof s⟩] := by
  unfold regionSplit
  split_ifs <;> rfl

theorem regionSplit_bounds (atof : String → ℚ) (b f : Nat) (lb ub c s : String) :
    (regionSplit atof b f lb ub c s).bounds
      = (if lb ≠ "-infty" then [(⟨b, atof lb, .LB⟩ : Tightening)] else [])
        ++ (if ub ≠ "infty" then [(⟨b, atof ub, .UB⟩ : Tightening)] else []) := by
  unfold regionSplit
  split_ifs <;> rfl

/-! ## Further lemmas on the decoder -/

theorem loopBody_inside (atof : String → ℚ) (tokens : List String) (b f : Nat)
    (count : Nat) (splits : List PiecewiseLinearCaseSplit)
    (h : count + 3 < tokens.length) :
    ∃ split, loopBody atof tokens b f ⟨count, count, splits⟩
      = some ⟨count + 4, count + 4, splits ++ [split]⟩ := by
  have h0 : count < tokens.length := by omega
  have h1 : count + 1 < tokens.length := by omega
  have h2 : count + 2 < tokens.length := by omega
  exact ⟨regionSplit atof b f tokens[count] tokens[count + 1] tokens[count + 2]
    tokens[count + 3], by simp [loopBody, List.getElem?_eq_getElem, h0, h1, h2, h]⟩

theorem regionLoop_out_of_fuel (atof : String → ℚ) (tokens : List String) (b f : Nat)
    (fuel : Nat) :
    ∀ (m : Nat) (st : LoopState), st.it = st.count →
      st.count + 4 * m = tokens.length → fuel < m →
      regionLoop atof tokens b f fuel st = .error .outOfFuel := by
  induction fuel with
  | zero =>
    intro m st _ hcount hm
    have h0 : st.count < tokens.length := by omega
    unfold regionLoop
    simp [h0]
  | succ fuel ih =>
    intro m st hit hcount hm
    obtain ⟨count, pos, splits⟩ := st
    simp only at hit hcount
    rw [hit]
    have h0 : count < tokens.length := by omega
    obtain ⟨split, hbody⟩ := loopBody_inside atof tokens b f count splits (by omega)
    unfold regionLoop
    simp only [h0, if_true, hbody]
    exact ih (m - 1) _ rfl (by simp only; omega) (by omega)

theorem toUnsigned_succ_pred (L : Nat) (h : L + 1 < 2 ^ 31) :
    toUnsigned (((L + 1 : Nat) : Int) - 1) = L := by
  unfold toUnsigned; omega

theorem toUnsigned_natCast (n : Nat) (h : n < 2 ^ 31) : toUnsigned (n : Int) = n := by
  unfold toUnsigned; omega

theorem regionSplit_separated (atof : String → ℚ) (b f : Nat)
    (lb ub c s lb' ub' c' s' : String) (hub : ub ≠ "infty") (hlb : lb' ≠ "-infty")
    (hlt : atof ub < atof lb') (σ : Nat → ℚ) :
    ¬ ((regionSplit atof b f lb ub c s).holds σ
        ∧ (regionSplit atof b f lb' ub' c' s').holds σ) := by
  rintro ⟨⟨h1, _⟩, ⟨h2, _⟩⟩
  have hu : (⟨b, atof ub, .UB⟩ : Tightening) ∈ (regionSplit atof b f lb ub c s).bounds := by
    rw [regionSplit_bounds]; simp [hub]
  have hl : (⟨b, atof lb', .LB⟩ : Tightening)
      ∈ (regionSplit atof b f lb' ub' c' s').bounds := by
    rw [regionSplit_bounds]; simp [hlb]
  have hu' := h1 _ hu
  have hl' := h2 _ hl
  simp only [Tightening.holds] at hu' hl'
  exact absurd (lt_of_le_of_lt (le_trans hl' hu') hlt) (lt_irrefl _)

/-- C2: for an activation string that exists and has `4 * k` tokens, the
case split of group `i` holds exactly one equation; its addends are `(1, f)`
and `(-c, b)` and its scalar is `s`, with `c` and `s` the numbers of tokens
`4 * i + 2` and `4 * i + 3`; an assignment satisfies it iff `f - c * b = s`,
that is iff `f = c * b + s`. -/
theorem getActivationFunction_sign_convention (tokenize : String → List String)
    (atof : String → ℚ) (activationInformation : NeuronIndex → Option String)
    (layer neuron : Int) (b f : Nat) (text : String) (k i : Nat)
    (h1 : activationInformation ⟨toUnsigned (layer - 1), toUnsigned neuron⟩ = some text)
    (h2 : (tokenize text).length = 4 * k) (hi : i < k) :
    ∃ d split c s,
      getActivationFunction tokenize atof activationInformation layer neuron b f = .ok d
        ∧ (tokenize text)[4 * i + 2]? = some c
        ∧ (tokenize text)[4 * i + 3]? = some s
        ∧ d.disjuncts[i]? = some split
        ∧ split.equations = [⟨[⟨1, f⟩, ⟨-atof c, b⟩], atof s⟩]
        ∧ ∀ σ : Nat → ℚ,
          (Equation.holds ⟨[⟨1, f⟩, ⟨-atof c, b⟩], atof s⟩ σ
              ↔ σ f - atof c * σ b = atof s)
            ∧ (Equation.holds ⟨[⟨1, f⟩, ⟨-atof c, b⟩], atof s⟩ σ
              ↔ σ f = atof c * σ b + atof s) := by
  obtain ⟨lb, ub, c, s, _, _, hc, hs, hsplit⟩ :=
    regions_getElem atof b f (tokenize text) i (by omega)
  exact ⟨_, _, c, s,
    getActivationFunction_ok tokenize atof activationInformation layer neuron b f text h1
      (by omega),
    hc, hs, hsplit, regionSplit_equations atof b f lb ub c s,
    fun σ => holds_region_equation (atof c) (atof s) b f σ⟩

/-- C2 at a concrete input: the string "-1,1,2,3" (coefficient 2, scalar 3)
with `b` = 3 and `f` = 7 gives one case split whose equation has the addends
`(1, 7)` and `(-2, 3)` and the scalar 3, satisfied iff `f - 2 * b = 3`. -/
theorem getActivationFunction_sign_convention_witness :
    sampleInformation ⟨toUnsigned (1 - 1), toUnsigned 1⟩ = some "-1,1,2,3"
      ∧ (tokenizeComma "-1,1,2,3").length = 4 * 1
      ∧ (∃ d split c s,
          getActivationFunction tokenizeComma atofDecimal sampleInformation 1 1 3 7 = .ok d
            ∧ (tokenizeComma "-1,1,2,3")[4 * 0 + 2]? = some c
            ∧ (tokenizeComma "-1,1,2,3")[4 * 0 + 3]? = some s
            ∧ d.disjuncts[0]? = some split
            ∧ split.equations = [⟨[⟨1, 7⟩, ⟨-atofDecimal c, 3⟩], atofDecimal s⟩]
            ∧ ∀ σ : Nat → ℚ,
              (Equation.holds ⟨[⟨1, 7⟩, ⟨-atofDecimal c, 3⟩], atofDecimal s⟩ σ
                  ↔ σ 7 - atofDecimal c * σ 3 = atofDecimal s)
                ∧ (Equation.holds ⟨[⟨1, 7⟩, ⟨-atofDecimal c, 3⟩], atofDecimal s⟩ σ
                  ↔ σ 7 = atofDecimal c * σ 3 + atofDecimal s))
      ∧ getActivationFunction tokenizeComma atofDecimal sampleInformation 1 1 3 7
          = .ok ⟨[⟨[⟨3, -1, .LB⟩, ⟨3, 1, .UB⟩], [⟨[⟨1, 7⟩, ⟨-2, 3⟩], 3⟩]⟩]⟩ :=
  ⟨by decide, by decide,
    getActivationFunction_sign_convention tokenizeComma atofDecimal sampleInformation
      1 1 3 7 "-1,1,2,3" 1 0 (by decide) (by decide) (by decide),
    by decide⟩

/-- C3: for an activation string that exists and has `4 * k` tokens the
function returns a disjunction of exactly `k` case splits, and case split `i`
is the one built from the tokens `4 * i .. 4 * i + 3`. For the ReLU string
with `b` = 3 and `f` = 7 these are the two case splits
`{UB(3) = 0, 1 * f + (-0) * b = 0}` and `{LB(3) = 0, 1 * f + (-1) * b = 0}`. -/
theorem getActivationFunction_regions_in_order (tokenize : String → List String)
    (atof : String → ℚ) (activationInformation : NeuronIndex → Option String)
    (layer neuron : Int) (b f : Nat) (text : String) (k : Nat)
    (h1 : activationInformation ⟨toUnsigned (layer - 1), toUnsigned neuron⟩ = some text)
    (h2 : (tokenize text).length = 4 * k) :
    (∃ d, getActivationFunction tokenize atof activationInformation layer neuron b f = .ok d
        ∧ d.disjuncts.length = k
        ∧ ∀ i, i < k → ∃ lb ub c s,
            (tokenize text)[4 * i]? = some lb ∧ (tokenize text)[4 * i + 1]? = some ub
              ∧ (tokenize text)[4 * i + 2]? = some c ∧ (tokenize text)[4 * i + 3]? = some s
              ∧ d.disjuncts[i]? = some (regionSplit atof b f lb ub c s))
      ∧ getActivationFunction tokenizeComma atofDecimal sampleInformation 1 0 3 7
          = .ok ⟨[⟨[⟨3, 0, .UB⟩], [⟨[⟨1, 7⟩, ⟨-0, 3⟩], 0⟩]⟩,
                  ⟨[⟨3, 0, .LB⟩], [⟨[⟨1, 7⟩, ⟨-1, 3⟩], 0⟩]⟩]⟩ := by
  refine ⟨⟨_, getActivationFunction_ok tokenize atof activationInformation layer neuron
    b f text h1 (by omega), ?_, ?_⟩, by decide⟩
  · simp only [regions_length, h2]
    omega
  · intro i hi
    exact regions_getElem atof b f (tokenize text) i (by omega)

/-- C3 at the ReLU string "-infty,0,0,0,0,infty,1,0": it has 4 * 2 tokens
and two case splits come back, in the order of the string. -/
theorem getActivationFunction_regions_in_order_witness :
    sampleInformation ⟨toUnsigned (1 - 1), toUnsigned 0⟩ = some "-infty,0,0,0,0,infty,1,0"
      ∧ (tokenizeComma "-infty,0,0,0,0,infty,1,0").length = 4 * 2
      ∧ (∃ d, getActivationFunction tokenizeComma atofDecimal sampleInformation 1 0 3 7 = .ok d
          ∧ d.disjuncts.length = 2
          ∧ ∀ i, i < 2 → ∃ lb ub c s,
              (tokenizeComma "-infty,0,0,0,0,infty,1,0")[4 * i]? = some lb
                ∧ (tokenizeComma "-infty,0,0,0,0,infty,1,0")[4 * i + 1]? = some ub
                ∧ (tokenizeComma "-infty,0,0,0,0,infty,1,0")[4 * i + 2]? = some c
                ∧ (tokenizeComma "-infty,0,0,0,0,infty,1,0")[4 * i + 3]? = some s
                ∧ d.disjuncts[i]? = some (regionSplit atofDecimal 3 7 lb ub c s))
      ∧ regionSplit atofDecimal 3 7 "-infty" "0" "0" "0"
          = ⟨[⟨3, 0, .UB⟩], [⟨[⟨1, 7⟩, ⟨0, 3⟩], 0⟩]⟩
      ∧ regionSplit atofDecimal 3 7 "0" "infty" "1" "0"
          = ⟨[⟨3, 0, .LB⟩], [⟨[⟨1, 7⟩, ⟨-1, 3⟩], 0⟩]⟩ :=
  ⟨by decide, by decide,
    (getActivationFunction_regions_in_order tokenizeComma atofDecimal sampleInformation
      1 0 3 7 "-infty,0,0,0,0,infty,1,0" 2 (by decide) (by decide)).1,
    by decide, by decide⟩

/-- C4: for an activation string that exists and has `4 * k` tokens, the
case split of group `i` has a lower-bound tightening iff token `4 * i` is not
"-infty" and an upper-bound tightening iff token `4 * i + 1` is not "infty";
every tightening is on `b` (so not on `f` when the two variables differ) and
carries the number of its token, and there are at most two of them. -/
theorem getActivationFunction_sentinels (tokenize : String → List String)
    (atof : String → ℚ) (activationInformation : NeuronIndex → Option String)
    (layer neuron : Int) (b f : Nat) (text : String) (k i : Nat)
    (h1 : activationInformation ⟨toUnsigned (layer - 1), toUnsigned neuron⟩ = some text)
    (h2 : (tokenize text).length = 4 * k) (hi : i < k) :
    ∃ d split lb ub,
      getActivationFunction tokenize atof activationInformation layer neuron b f = .ok d
        ∧ (tokenize text)[4 * i]? = some lb
        ∧ (tokenize text)[4 * i + 1]? = some ub
        ∧ d.disjuncts[i]? = some split
        ∧ ((∃ t ∈ split.bounds, t.type = .LB) ↔ lb ≠ "-infty")
        ∧ ((∃ t ∈ split.bounds, t.type = .UB) ↔ ub ≠ "infty")
        ∧ (∀ t ∈ split.bounds, t.var = b
            ∧ ((t.type = .LB ∧ t.value = atof lb) ∨ (t.type = .UB ∧ t.value = atof ub)))
        ∧ (b ≠ f → ∀ t ∈ split.bounds, t.var ≠ f)
        ∧ split.bounds.length ≤ 2
        ∧ split.bounds
            = (if lb ≠ "-infty" then [(⟨b, atof lb, .LB⟩ : Tightening)] else [])
              ++ (if ub ≠ "infty" then [(⟨b, atof ub, .UB⟩ : Tightening)] else []) := by
  obtain ⟨lb, ub, c, s, hlb, hub, _, _, hsplit⟩ :=
    regions_getElem atof b f (tokenize text) i (by omega)
  have hb := regionSplit_bounds atof b f lb ub c s
  refine ⟨_, _, lb, ub,
    getActivationFunction_ok tokenize atof activationInformation layer neuron b f text h1
      (by omega),
    hlb, hub, hsplit, ?_, ?_, ?_, ?_, ?_, hb⟩
  · rw [hb]; split_ifs <;> simp_all
  · rw [hb]; split_ifs <;> simp_all
  · rw [hb]; split_ifs <;> simp
  · intro hbf
    rw [hb]; split_ifs <;> simp [hbf]
  · rw [hb]; split_ifs <;> simp

/-- C4 at the first group of the ReLU string, `(-infty, 0, 0, 0)`: the case
split has no lower-bound tightening and the one upper-bound tightening
`UB(3) = 0`. -/
theorem getActivationFunction_sentinels_witness :
    sampleInformation ⟨toUnsigned (1 - 1), toUnsigned 0⟩ = some "-infty,0,0,0,0,infty,1,0"
      ∧ (tokenizeComma "-infty,0,0,0,0,infty,1,0").length = 4 * 2
      ∧ (∃ d split lb ub,
          getActivationFunction tokenizeComma atofDecimal sampleInformation 1 0 3 7 = .ok d
            ∧ (tokenizeComma "-infty,0,0,0,0,infty,1,0")[4 * 0]? = some lb
            ∧ (tokenizeComma "-infty,0,0,0,0,infty,1,0")[4 * 0 + 1]? = some ub
            ∧ d.disjuncts[0]? = some split
            ∧ ((∃ t ∈ split.bounds, t.type = .LB) ↔ lb ≠ "-infty")
            ∧ ((∃ t ∈ split.bounds, t.type = .UB) ↔ ub ≠ "infty")
            ∧ (∀ t ∈ split.bounds, t.var = 3
                ∧ ((t.type = .LB ∧ t.value = atofDecimal lb)
                  ∨ (t.type = .UB ∧ t.value = atofDecimal ub)))
            ∧ (3 ≠ 7 → ∀ t ∈ split.bounds, t.var ≠ 7)
            ∧ split.bounds.length ≤ 2
            ∧ split.bounds
                = (if lb ≠ "-infty" then [(⟨3, atofDecimal lb, .LB⟩ : Tightening)] else [])
                  ++ (if ub ≠ "infty" then [(⟨3, atofDecimal ub, .UB⟩ : Tightening)] else []))
      ∧ (regionSplit atofDecimal 3 7 "-infty" "0" "0" "0").bounds = [⟨3, 0, .UB⟩] :=
  ⟨by decide, by decide,
    getActivationFunction_sentinels tokenizeComma atofDecimal sampleInformation
      1 0 3 7 "-infty,0,0,0,0,infty,1,0" 2 0 (by decide) (by decide) (by decide),
    by decide⟩

/-- C5: when the activation string exists and its token count is not a
multiple of 4, the function ends with the malformed-string error, which
carries the string and no case split; no constraint is returned. -/
theorem getActivationFunction_rejects_bad_length (tokenize : String → List String)
    (atof : String → ℚ) (activationInformation : NeuronIndex → Option String)
    (layer neuron : Int) (b f : Nat) (text : String)
    (h1 : activationInformation ⟨toUnsigned (layer - 1), toUnsigned neuron⟩ = some text)
    (h2 : (tokenize text).length % 4 ≠ 0) :
    getActivationFunction tokenize atof activationInformation layer neuron b f
        = .error (.malformedActivation text)
      ∧ ∀ d, getActivationFunction tokenize atof activationInformation layer neuron b f
          ≠ .ok d := by
  have h := getActivationFunction_malformed tokenize atof activationInformation layer
    neuron b f text h1 h2
  refine ⟨h, ?_⟩
  intro d hd
  rw [h] at hd
  cases hd

/-- C5 at the five-token string "0,1,2,3,4". -/
theorem getActivationFunction_rejects_bad_length_witness :
    sampleInformation ⟨toUnsigned (1 - 1), toUnsigned 2⟩ = some "0,1,2,3,4"
      ∧ (tokenizeComma "0,1,2,3,4").length = 5
      ∧ (tokenizeComma "0,1,2,3,4").length % 4 ≠ 0
      ∧ getActivationFunction tokenizeComma atofDecimal sampleInformation 1 2 3 7
          = .error (.malformedActivation "0,1,2,3,4")
      ∧ ∀ d, getActivationFunction tokenizeComma atofDecimal sampleInformation 1 2 3 7
          ≠ .ok d :=
  have h := getActivationFunction_rejects_bad_length tokenizeComma atofDecimal
    sampleInformation 1 2 3 7 "0,1,2,3,4" (by decide) (by decide)
  ⟨by decide, by decide, by decide, h.1, h.2⟩

/-- C6: the function ends with the missing-activation error exactly when
the activation table has no entry under the index it looks up,
`NeuronIndex( layer - 1, neuron )`; it then returns no constraint, and the
error names the `layer` and `neuron` of the call. -/
theorem getActivationFunction_missing_iff (tokenize : String → List String)
    (atof : String → ℚ) (activationInformation : NeuronIndex → Option String)
    (layer neuron : Int) (b f : Nat) :
    ((∃ l n, getActivationFunction tokenize atof activationInformation layer neuron b f
          = .error (.missingActivation l n))
        ↔ activationInformation ⟨toUnsigned (layer - 1), toUnsigned neuron⟩ = none)
      ∧ (activationInformation ⟨toUnsigned (layer - 1), toUnsigned neuron⟩ = none →
          getActivationFunction tokenize atof activationInformation layer neuron b f
              = .error (.missingActivation layer neuron)
            ∧ ∀ d, getActivationFunction tokenize atof activationInformation layer neuron b f
                ≠ .ok d) := by
  have hnone : activationInformation ⟨toUnsigned (layer - 1), toUnsigned neuron⟩ = none →
      getActivationFunction tokenize atof activationInformation layer neuron b f
        = .error (.missingActivation layer neuron) :=
    getActivationFunction_missing tokenize atof activationInformation layer neuron b f
  refine ⟨⟨?_, fun h => ⟨layer, neuron, hnone h⟩⟩, fun h => ⟨hnone h, ?_⟩⟩
  · rintro ⟨l, n, hres⟩
    cases hinfo : activationInformation ⟨toUnsigned (layer - 1), toUnsigned neuron⟩ with
    | none => rfl
    | some text =>
      by_cases hlen : (tokenize text).length % 4 = 0
      · rw [getActivationFunction_ok tokenize atof activationInformation layer neuron b f
          text hinfo hlen] at hres
        cases hres
      · rw [getActivationFunction_malformed tokenize atof activationInformation layer
          neuron b f text hinfo hlen] at hres
        cases hres
  · intro d hd
    rw [hnone h] at hd
    cases hd

/-- C6 at concrete calls: neuron 5 of layer 1 has no entry under `(0, 5)`
and the call ends with the missing-activation error; neuron 0 has an entry
under `(0, 0)` and the call returns a constraint. -/
theorem getActivationFunction_missing_iff_witness :
    sampleInformation ⟨toUnsigned (1 - 1), toUnsigned 5⟩ = none
      ∧ getActivationFunction tokenizeComma atofDecimal sampleInformation 1 5 3 7
          = .error (.missingActivation 1 5)
      ∧ (∀ d, getActivationFunction tokenizeComma atofDecimal sampleInformation 1 5 3 7
          ≠ .ok d)
      ∧ ((∃ l n, getActivationFunction tokenizeComma atofDecimal sampleInformation 1 0 3 7
            = .error (.missingActivation l n))
          ↔ sampleInformation ⟨toUnsigned (1 - 1), toUnsigned 0⟩ = none)
      ∧ sampleInformation ⟨toUnsigned (1 - 1), toUnsigned 0⟩ ≠ none :=
  have h5 := (getActivationFunction_missing_iff tokenizeComma atofDecimal
    sampleInformation 1 5 3 7).2 (by decide)
  ⟨by decide, h5.1, h5.2,
    (getActivationFunction_missing_iff tokenizeComma atofDecimal sampleInformation
      1 0 3 7).1,
    by decide⟩

/-! ## The further claims on BranchingHeuristics -/

/-- C11 (the claim fails on the code): a second `initialize` over [1, 2]
right after a first one returns, and so does `initialize` over [3, 3], a list
that names constraint 3 twice; neither call ends in a failed assertion. -/
theorem initialize_twice_and_duplicates_return :
    initializeOutcome ( BranchingHeuristics.initialize .empty [1, 2]) [1, 2]
        = .returned () ⟨[(1, 1), (2, 1)], [(1, 1), (1, 2)]⟩
      ∧ initializeOutcome .empty [3, 3] = .returned () ⟨[(3, 1)], [(1, 3)]⟩
      ∧ ¬ (∃ s, initializeOutcome ( BranchingHeuristics.initialize .empty [1, 2]) [1, 2]
            = .assertionFailed s)
      ∧ ¬ (∃ s, initializeOutcome .empty [3, 3] = .assertionFailed s) := by
  refine ⟨by decide, by decide, ?_, ?_⟩
  · rintro ⟨s, hs⟩
    cases hs
  · rintro ⟨s, hs⟩
    cases hs

/-- C11 as amended: `initialize` checks no precondition. On any object and
any list (a list with repeated constraints, a second call) it returns;
afterwards the tracked constraints are those of the list and those tracked
before, every listed constraint has score 1, the other scores are as before,
and the ordered set holds the old pairs and `(1, c)` for every listed `c`. -/
theorem initialize_always_returns (st : BranchingHeuristics)
    (constraints : List Constraint) :
    ∃ st', initializeOutcome st constraints = .returned () st'
      ∧ (∀ c, c ∈ st'.tracked ↔ c ∈ constraints ∨ c ∈ st.tracked)
      ∧ (∀ c, c ∈ constraints → st'.score c = some 1)
      ∧ (∀ c, c ∉ constraints → st'.score c = st.score c)
      ∧ (∀ p, p ∈ st'.scoreConstraintPairs
          ↔ (∃ c ∈ constraints, p = (1, c)) ∨ p ∈ st.scoreConstraintPairs) := by
  refine ⟨_, rfl, fun c => initialize_tracked constraints st c, ?_, ?_,
    fun p => initialize_pairs constraints st p⟩
  · intro c hc
    rw [initialize_score, if_pos hc]
  · intro c hc
    rw [initialize_score, if_neg hc]

/-- C13: in a reachable state, for a tracked constraint `c` and a score `s`,
`updateScore( c, s )` returns, a second `updateScore( c, s )` returns too and
leaves the object exactly as the first call left it, and `pickMaxScore`
returns the same constraint after one call as after two. -/
theorem updateScore_idempotent (st : BranchingHeuristics) (c : Constraint) (s : ℚ)
    (hr : Reachable st) (hc : c ∈ st.tracked) :
    ∃ st1 st2 c',
      st.updateScore c s = .returned () st1
        ∧ st1.updateScore c s = .returned () st2
        ∧ st2 = st1
        ∧ st1.pickMaxScore = .returned c' st1
        ∧ st2.pickMaxScore = .returned c' st2 := by
  have h1 := updateScore_of_tracked st c s hc
  have hr1 : Reachable _ := Reachable.updated c s hr h1
  have hc1 : c ∈ BranchingHeuristics.tracked
      { st with constraintToScore := mapAssign st.constraintToScore c s } := by
    exact (mem_keys_mapAssign st.constraintToScore c s c).2 (Or.inl rfl)
  have h2 := updateScore_of_tracked _ c s hc1
  simp only [mapAssign_idem] at h2
  obtain ⟨c', hpick, _⟩ := pickMaxScore_of_reachable _ hr1 c hc1
  exact ⟨_, _, c', h1, h2, rfl, hpick, hpick⟩

/-- C13 at a concrete state: on `twoTracked`, `updateScore( 4, 9 )` once and
twice both leave the object `twoTrackedUpdated`, where `pickMaxScore` returns
constraint 2. -/
theorem updateScore_idempotent_witness :
    Reachable twoTracked ∧ 4 ∈ twoTracked.tracked
      ∧ (∃ st1 st2 c',
          twoTracked.updateScore 4 9 = .returned () st1
            ∧ st1.updateScore 4 9 = .returned () st2
            ∧ st2 = st1
            ∧ st1.pickMaxScore = .returned c' st1
            ∧ st2.pickMaxScore = .returned c' st2)
      ∧ twoTracked.updateScore 4 9 = .returned () twoTrackedUpdated
      ∧ twoTrackedUpdated.updateScore 4 9 = .returned () twoTrackedUpdated
      ∧ twoTrackedUpdated.pickMaxScore = .returned 2 twoTrackedUpdated :=
  have hr : Reachable twoTracked := Reachable.initialized [4, 2] Reachable.constructed
  ⟨hr, by decide, updateScore_idempotent twoTracked 4 9 hr (by decide),
    by decide, by decide, by decide⟩

/-- C14: a returning `pickMaxScore` leaves the object as it was (score table
and ordered set), the constraint it returns is still tracked, and a second
call on the object returns the same constraint. -/
theorem pickMaxScore_pure (st st' : BranchingHeuristics) (c : Constraint)
    (hr : Reachable st) (h : st.pickMaxScore = .returned c st') :
    st' = st
      ∧ st'.constraintToScore = st.constraintToScore
      ∧ st'.scoreConstraintPairs = st.scoreConstraintPairs
      ∧ c ∈ st'.tracked
      ∧ st'.pickMaxScore = .returned c st' := by
  have hst := pickMaxScore_state h
  subst hst
  refine ⟨rfl, rfl, rfl, ?_, h⟩
  have hinv := pairsFrozen_of_reachable hr
  unfold BranchingHeuristics.pickMaxScore ASSERT at h
  split_ifs at h
  split at h
  · cases h
  · rename_i p more hpairs
    injection h with hc _
    rw [← hc]
    exact ((hinv p).1 (by rw [hpairs]; simp)).2

/-- C14 at a state with equal scores: on `threeTied`, where the constraints
3, 5 and 8 all have score 1, `pickMaxScore` returns constraint 3 and leaves
the object unchanged, so the next call returns 3 again. -/
theorem pickMaxScore_pure_witness :
    Reachable threeTied
      ∧ threeTied.pickMaxScore = .returned 3 threeTied
      ∧ (threeTied = threeTied
          ∧ threeTied.constraintToScore = threeTied.constraintToScore
          ∧ threeTied.scoreConstraintPairs = threeTied.scoreConstraintPairs
          ∧ 3 ∈ threeTied.tracked
          ∧ threeTied.pickMaxScore = .returned 3 threeTied)
      ∧ threeTied.constraintToScore = [(3, 1), (5, 1), (8, 1)] :=
  have hr : Reachable threeTied := Reachable.initialized [5, 3, 8] Reachable.constructed
  ⟨hr, by decide, pickMaxScore_pure threeTied threeTied 3 hr (by decide), by decide⟩

/-- C16: after `initialize` over a non-empty list on the constructed object
the first pair of the ordered set is `(1, c)` with `c` the smallest constraint
of the list, every other pair of the set comes after it and every pair has
score 1; `pickMaxScore` returns this `c`, and it still returns `c` after any
sequence of successful `updateScore` calls. -/
theorem pickMaxScore_frozen (constraints : List Constraint)
    (updates : List (Constraint × ℚ)) (st' : BranchingHeuristics)
    (hne : constraints ≠ [])
    (hups : updateScores ( BranchingHeuristics.initialize .empty constraints) updates
      = some st') :
    ∃ c more, c ∈ constraints ∧ (∀ c' ∈ constraints, c ≤ c')
      ∧ ( BranchingHeuristics.initialize .empty constraints).scoreConstraintPairs
          = (1, c) :: more
      ∧ (∀ p ∈ more, pairLt (1, c) p ∧ p.1 = 1)
      ∧ BranchingHeuristics.pickMaxScore ( BranchingHeuristics.initialize .empty constraints)
          = .returned c ( BranchingHeuristics.initialize .empty constraints)
      ∧ st'.pickMaxScore = .returned c st' := by
  obtain ⟨c, more, hc, hmin, hhead⟩ := initialize_head constraints hne
  have hs := (initialize_sorted constraints .empty List.Pairwise.nil List.Pairwise.nil).2
  have htr : c ∈ ( BranchingHeuristics.initialize .empty constraints).tracked :=
    (initialize_tracked constraints .empty c).2 (Or.inl hc)
  obtain ⟨hp, ht⟩ := updateScores_frame updates _ st' hups
  refine ⟨c, more, hc, hmin, hhead, ?_, ?_, ?_⟩
  · intro p hp'
    rw [hhead] at hs
    refine ⟨(List.pairwise_cons.1 hs).1 p hp', ?_⟩
    have hin : p ∈ ( BranchingHeuristics.initialize .empty constraints).scoreConstraintPairs := by
      rw [hhead]; exact List.mem_cons_of_mem _ hp'
    rcases (initialize_pairs constraints .empty p).1 hin with ⟨c', _, rfl⟩ | h
    · rfl
    · simp [BranchingHeuristics.empty] at h
  · exact pickMaxScore_of_head _ c (1, c) more htr hhead
  · exact pickMaxScore_of_head st' c (1, c) more ((ht c).2 htr) (hp.trans hhead)

/-- C16 at a concrete run: after `initialize` over [4, 2] and the calls
`updateScore( 2, 9 )`, `updateScore( 4, 3 )`, `updateScore( 2, 0 )`,
`pickMaxScore` returns constraint 2, as it does right after `initialize`. -/
theorem pickMaxScore_frozen_witness :
    ([4, 2] : List Constraint) ≠ []
      ∧ updateScores ( BranchingHeuristics.initialize .empty [4, 2]) [(2, 9), (4, 3), (2, 0)]
          = some ⟨[(2, 0), (4, 3)], [(1, 2), (1, 4)]⟩
      ∧ (∃ c more, c ∈ ([4, 2] : List Constraint) ∧ (∀ c' ∈ ([4, 2] : List Constraint), c ≤ c')
          ∧ ( BranchingHeuristics.initialize .empty [4, 2]).scoreConstraintPairs
              = (1, c) :: more
          ∧ (∀ p ∈ more, pairLt (1, c) p ∧ p.1 = 1)
          ∧ BranchingHeuristics.pickMaxScore ( BranchingHeuristics.initialize .empty [4, 2])
              = .returned c ( BranchingHeuristics.initialize .empty [4, 2])
          ∧ BranchingHeuristics.pickMaxScore ⟨[(2, 0), (4, 3)], [(1, 2), (1, 4)]⟩
              = .returned c ⟨[(2, 0), (4, 3)], [(1, 2), (1, 4)]⟩)
      ∧ BranchingHeuristics.pickMaxScore ⟨[(2, 0), (4, 3)], [(1, 2), (1, 4)]⟩
          = .returned 2 ⟨[(2, 0), (4, 3)], [(1, 2), (1, 4)]⟩ :=
  ⟨by decide, by decide,
    pickMaxScore_frozen [4, 2] [(2, 9), (4, 3), (2, 0)] ⟨[(2, 0), (4, 3)], [(1, 2), (1, 4)]⟩
      (by decide) (by decide),
    by decide⟩

/-- C17: in every state reached from the constructed object by `initialize`,
`updateScore` and `pickMaxScore`, the constraints occurring in the ordered set
are exactly the keys of the score table; so when the score table is not empty
the ordered set is not empty either and `pickMaxScore` returns its first
element's constraint. -/
theorem tracked_set_invariant (st : BranchingHeuristics) (hr : Reachable st) :
    (∀ c, c ∈ st.scoreConstraintPairs.map Prod.snd ↔ c ∈ st.tracked)
      ∧ (st.constraintToScore.isEmpty = false →
          st.scoreConstraintPairs ≠ []
            ∧ (∀ s, st.pickMaxScore ≠ .undefinedBehaviour s)
            ∧ ∃ p, st.scoreConstraintPairs.head? = some p
                ∧ st.pickMaxScore = .returned p.2 st) := by
  have hinv := pairsFrozen_of_reachable hr
  constructor
  · intro c
    constructor
    · intro hc
      obtain ⟨p, hp, rfl⟩ := List.mem_map.1 hc
      exact ((hinv p).1 hp).2
    · intro hc
      exact List.mem_map.2 ⟨(1, c), (hinv (1, c)).2 ⟨rfl, hc⟩, rfl⟩
  · intro hne
    obtain ⟨table, pairs⟩ := st
    cases table with
    | nil => simp at hne
    | cons e rest =>
      have hmem : ((1 : ℚ), e.1) ∈ pairs :=
        (hinv (1, e.1)).2 ⟨rfl, by simp [BranchingHeuristics.tracked]⟩
      cases pairs with
      | nil => simp at hmem
      | cons p more =>
        have hret : BranchingHeuristics.pickMaxScore ⟨e :: rest, p :: more⟩
            = .returned p.2 ⟨e :: rest, p :: more⟩ := by
          simp [BranchingHeuristics.pickMaxScore, ASSERT]
        refine ⟨by simp, ?_, p, rfl, hret⟩
        intro s hs
        rw [hret] at hs
        cases hs

/-- C17 at a concrete state: `twoTrackedUpdated` is reached by `initialize`
over [4, 2] and `updateScore( 4, 9 )`; its ordered set names the constraints
2 and 4, the keys of its score table. -/
theorem tracked_set_invariant_witness :
    Reachable twoTrackedUpdated
      ∧ (∀ c, c ∈ twoTrackedUpdated.scoreConstraintPairs.map Prod.snd
          ↔ c ∈ twoTrackedUpdated.tracked)
      ∧ (twoTrackedUpdated.constraintToScore.isEmpty = false →
          twoTrackedUpdated.scoreConstraintPairs ≠ []
            ∧ (∀ s, twoTrackedUpdated.pickMaxScore ≠ .undefinedBehaviour s)
            ∧ ∃ p, twoTrackedUpdated.scoreConstraintPairs.head? = some p
                ∧ twoTrackedUpdated.pickMaxScore = .returned p.2 twoTrackedUpdated)
      ∧ twoTrackedUpdated.scoreConstraintPairs.map Prod.snd = [2, 4]
      ∧ twoTrackedUpdated.tracked = [2, 4] :=
  have hr : Reachable twoTrackedUpdated :=
    Reachable.updated 4 9 (Reachable.initialized [4, 2] Reachable.constructed) (by decide)
  have ht := tracked_set_invariant twoTrackedUpdated hr
  ⟨hr, ht.1, ht.2, by decide, by decide⟩

/-! ## The further claims on getActivationFunction -/

/-- C12 (the claim fails on the code): the string "0,1,x,3" has four
tokens and its coefficient token, the letter x, is not a decimal number, yet
the function returns a constraint: the token is converted by `atof`, to 0. -/
theorem getActivationFunction_accepts_malformed_number :
    otherInformation ⟨toUnsigned (1 - 1), toUnsigned 0⟩ = some "0,1,x,3"
      ∧ (tokenizeComma "0,1,x,3").length % 4 = 0
      ∧ (tokenizeComma "0,1,x,3")[2]? = some "x"
      ∧ isDecimalToken "x" = false
      ∧ getActivationFunction tokenizeComma atofDecimal otherInformation 1 0 3 7
          = .ok ⟨[⟨[⟨3, 0, .LB⟩, ⟨3, 1, .UB⟩], [⟨[⟨1, 7⟩, ⟨-0, 3⟩], 3⟩]⟩]⟩
      ∧ ¬ (∃ e, getActivationFunction tokenizeComma atofDecimal otherInformation 1 0 3 7
            = .error e) := by
  refine ⟨by decide, by decide, by decide, by decide, by decide, ?_⟩
  rintro ⟨e, he⟩
  have h : getActivationFunction tokenizeComma atofDecimal otherInformation 1 0 3 7
      = .ok ⟨[⟨[⟨3, 0, .LB⟩, ⟨3, 1, .UB⟩], [⟨[⟨1, 7⟩, ⟨-0, 3⟩], 3⟩]⟩]⟩ := by decide
  rw [h] at he
  cases he

/-- C12 as amended: the function does not validate numeric tokens. For
every activation string that exists and whose token count is divisible by 4
it returns a constraint with one case split per group and ends in no error,
whatever the tokens are and whatever `atof` makes of them. -/
theorem getActivationFunction_never_rejects_numbers (tokenize : String → List String)
    (atof : String → ℚ) (activationInformation : NeuronIndex → Option String)
    (layer neuron : Int) (b f : Nat) (text : String)
    (h1 : activationInformation ⟨toUnsigned (layer - 1), toUnsigned neuron⟩ = some text)
    (h2 : (tokenize text).length % 4 = 0) :
    (∃ d, getActivationFunction tokenize atof activationInformation layer neuron b f = .ok d
        ∧ d.disjuncts = regions atof b f (tokenize text)
        ∧ d.disjuncts.length = (tokenize text).length / 4)
      ∧ ∀ e, getActivationFunction tokenize atof activationInformation layer neuron b f
          ≠ .error e := by
  have h := getActivationFunction_ok tokenize atof activationInformation layer neuron
    b f text h1 h2
  refine ⟨⟨_, h, rfl, regions_length atof b f (tokenize text)⟩, ?_⟩
  intro e he
  rw [h] at he
  cases he

/-- C12 as amended, at the string "x,y,z,w" with no number in it: one case
split comes back, every number in it being 0. -/
theorem getActivationFunction_never_rejects_numbers_witness :
    (fun _ => some "x,y,z,w" : NeuronIndex → Option String)
        ⟨toUnsigned (1 - 1), toUnsigned 0⟩ = some "x,y,z,w"
      ∧ (tokenizeComma "x,y,z,w").length % 4 = 0
      ∧ ((∃ d, getActivationFunction tokenizeComma atofDecimal (fun _ => some "x,y,z,w")
              1 0 3 7 = .ok d
            ∧ d.disjuncts = regions atofDecimal 3 7 (tokenizeComma "x,y,z,w")
            ∧ d.disjuncts.length = (tokenizeComma "x,y,z,w").length / 4)
          ∧ ∀ e, getActivationFunction tokenizeComma atofDecimal (fun _ => some "x,y,z,w")
              1 0 3 7 ≠ .error e)
      ∧ regions atofDecimal 3 7 (tokenizeComma "x,y,z,w")
          = [⟨[⟨3, 0, .LB⟩, ⟨3, 0, .UB⟩], [⟨[⟨1, 7⟩, ⟨-0, 3⟩], 0⟩]⟩] :=
  ⟨rfl, by decide,
    getActivationFunction_never_rejects_numbers tokenizeComma atofDecimal
      (fun _ => some "x,y,z,w") 1 0 3 7 "x,y,z,w" rfl (by decide),
    by decide⟩

/-- C15 (the claim fails on the code): the two case splits returned for the
ReLU string are different, and the assignment giving 0 to every variable
satisfies all tightenings and the equation of both. -/
theorem relu_regions_overlap :
    getActivationFunction tokenizeComma atofDecimal sampleInformation 1 0 3 7
        = .ok ⟨[⟨[⟨3, 0, .UB⟩], [⟨[⟨1, 7⟩, ⟨-0, 3⟩], 0⟩]⟩,
                ⟨[⟨3, 0, .LB⟩], [⟨[⟨1, 7⟩, ⟨-1, 3⟩], 0⟩]⟩]⟩
      ∧ (⟨[⟨3, 0, .UB⟩], [⟨[⟨1, 7⟩, ⟨-0, 3⟩], 0⟩]⟩ : PiecewiseLinearCaseSplit)
          ≠ ⟨[⟨3, 0, .LB⟩], [⟨[⟨1, 7⟩, ⟨-1, 3⟩], 0⟩]⟩
      ∧ PiecewiseLinearCaseSplit.holds ⟨[⟨3, 0, .UB⟩], [⟨[⟨1, 7⟩, ⟨-0, 3⟩], 0⟩]⟩ (fun _ => 0)
      ∧ PiecewiseLinearCaseSplit.holds ⟨[⟨3, 0, .LB⟩], [⟨[⟨1, 7⟩, ⟨-1, 3⟩], 0⟩]⟩ (fun _ => 0) := by
  refine ⟨by decide, by decide, ?_, ?_⟩
  · simp [PiecewiseLinearCaseSplit.holds, Tightening.holds, Equation.holds]
  · simp [PiecewiseLinearCaseSplit.holds, Tightening.holds, Equation.holds]

/-- C15 as amended: two case splits of a returned constraint cannot both be
satisfied when their input ranges are separated, that is when group `i` has an
upper-bound token other than "infty", group `j` a lower-bound token other than
"-infty", and the first number is below the second. -/
theorem getActivationFunction_separated_regions_exclusive
    (tokenize : String → List String) (atof : String → ℚ)
    (activationInformation : NeuronIndex → Option String)
    (layer neuron : Int) (b f : Nat) (text : String) (k i j : Nat) (ub lb : String)
    (h1 : activationInformation ⟨toUnsigned (layer - 1), toUnsigned neuron⟩ = some text)
    (h2 : (tokenize text).length = 4 * k) (hi : i < k) (hj : j < k)
    (hub : (tokenize text)[4 * i + 1]? = some ub) (hlb : (tokenize text)[4 * j]? = some lb)
    (hub' : ub ≠ "infty") (hlb' : lb ≠ "-infty") (hlt : atof ub < atof lb) :
    ∃ d si sj,
      getActivationFunction tokenize atof activationInformation layer neuron b f = .ok d
        ∧ d.disjuncts[i]? = some si ∧ d.disjuncts[j]? = some sj
        ∧ ∀ σ : Nat → ℚ, ¬ (si.holds σ ∧ sj.holds σ) := by
  obtain ⟨lbi, ubi, ci, si, _, hubi, _, _, hsi⟩ :=
    regions_getElem atof b f (tokenize text) i (by omega)
  obtain ⟨lbj, ubj, cj, sj, hlbj, _, _, _, hsj⟩ :=
    regions_getElem atof b f (tokenize text) j (by omega)
  rw [hub] at hubi
  rw [hlb] at hlbj
  injection hubi with hubi
  injection hlbj with hlbj
  subst hubi
  subst hlbj
  exact ⟨_, _, _,
    getActivationFunction_ok tokenize atof activationInformation layer neuron b f text h1
      (by omega),
    hsi, hsj,
    fun σ => regionSplit_separated atof b f lbi ub ci si lb ubj cj sj hub' hlb' hlt σ⟩

/-- C15 as amended, at the string "-infty,-1,0,0,1,infty,1,0": the ranges
up to -1 and from 1 are separated and no assignment satisfies both case
splits. -/
theorem getActivationFunction_separated_regions_exclusive_witness :
    otherInformation ⟨toUnsigned (1 - 1), toUnsigned 2⟩ = some "-infty,-1,0,0,1,infty,1,0"
      ∧ (tokenizeComma "-infty,-1,0,0,1,infty,1,0").length = 4 * 2
      ∧ (tokenizeComma "-infty,-1,0,0,1,infty,1,0")[4 * 0 + 1]? = some "-1"
      ∧ (tokenizeComma "-infty,-1,0,0,1,infty,1,0")[4 * 1]? = some "1"
      ∧ atofDecimal "-1" < atofDecimal "1"
      ∧ ∃ d si sj,
          getActivationFunction tokenizeComma atofDecimal otherInformation 1 2 3 7 = .ok d
            ∧ d.disjuncts[0]? = some si ∧ d.disjuncts[1]? = some sj
            ∧ ∀ σ : Nat → ℚ, ¬ (si.holds σ ∧ sj.holds σ) :=
  ⟨by decide, by decide, by decide, by decide, by decide,
    getActivationFunction_separated_regions_exclusive tokenizeComma atofDecimal
      otherInformation 1 2 3 7 "-infty,-1,0,0,1,infty,1,0" 2 0 1 "-1" "1"
      (by decide) (by decide) (by decide) (by decide) (by decide) (by decide)
      (by decide) (by decide) (by decide)⟩

/-- C18: for a token list of length `4 * k` the loop, started as the
function starts it, needs exactly `k` iterations: given `k` iterations or more
it ends with `count` and the iterator at the end of the list and `k` case
splits, given fewer it is cut short, and it never reads outside the list; in
iteration `j` the four reads are at the positions `4 * j .. 4 * j + 3`, all
inside the list, and leave the iterator at `4 * (j + 1)`, not past the end.
The `tokens.size()` iterations the function allows are at least `k`. -/
theorem regionLoop_terminates_safely (atof : String → ℚ) (tokens : List String)
    (b f : Nat) (k : Nat) (h : tokens.length = 4 * k) :
    (∀ fuel, k ≤ fuel →
        regionLoop atof tokens b f fuel ⟨0, 0, []⟩
          = .ok ⟨tokens.length, tokens.length, regions atof b f tokens⟩)
      ∧ (∀ fuel, fuel < k →
          regionLoop atof tokens b f fuel ⟨0, 0, []⟩ = .error .outOfFuel)
      ∧ (∀ fuel, regionLoop atof tokens b f fuel ⟨0, 0, []⟩ ≠ .error .readPastEnd)
      ∧ (∀ j, j < k → ∀ acc, 4 * j + 3 < tokens.length
          ∧ ∃ split, loopBody atof tokens b f ⟨4 * j, 4 * j, acc⟩
              = some ⟨4 * (j + 1), 4 * (j + 1), acc ++ [split]⟩
            ∧ 4 * (j + 1) ≤ tokens.length)
      ∧ (regions atof b f tokens).length = k
      ∧ k ≤ tokens.length := by
  have hok : ∀ fuel, k ≤ fuel →
      regionLoop atof tokens b f fuel ⟨0, 0, []⟩
        = .ok ⟨tokens.length, tokens.length, regions atof b f tokens⟩ := by
    intro fuel hfuel
    have := regionLoop_eq atof tokens b f k fuel ⟨0, 0, []⟩ rfl (by simp only; omega) hfuel
    simpa using this
  have hcut : ∀ fuel, fuel < k →
      regionLoop atof tokens b f fuel ⟨0, 0, []⟩ = .error .outOfFuel := by
    intro fuel hfuel
    exact regionLoop_out_of_fuel atof tokens b f fuel k ⟨0, 0, []⟩ rfl
      (by simp only; omega) hfuel
  refine ⟨hok, hcut, ?_, ?_, ?_, by omega⟩
  · intro fuel hbad
    rcases Nat.lt_or_ge fuel k with hlt | hge
    · rw [hcut fuel hlt] at hbad
      cases hbad
    · rw [hok fuel hge] at hbad
      cases hbad
  · intro j hj acc
    refine ⟨by omega, ?_⟩
    obtain ⟨split, hsplit⟩ := loopBody_inside atof tokens b f (4 * j) acc (by omega)
    exact ⟨split, hsplit, by omega⟩
  · rw [regions_length, h]
    omega

/-- C18 at the eight tokens of the ReLU string: two iterations end the
loop, one does not. -/
theorem regionLoop_terminates_safely_witness :
    (tokenizeComma "-infty,0,0,0,0,infty,1,0").length = 4 * 2
      ∧ regionLoop atofDecimal (tokenizeComma "-infty,0,0,0,0,infty,1,0") 3 7 2 ⟨0, 0, []⟩
          = .ok ⟨8, 8, [⟨[⟨3, 0, .UB⟩], [⟨[⟨1, 7⟩, ⟨-0, 3⟩], 0⟩]⟩,
                        ⟨[⟨3, 0, .LB⟩], [⟨[⟨1, 7⟩, ⟨-1, 3⟩], 0⟩]⟩]⟩
      ∧ regionLoop atofDecimal (tokenizeComma "-infty,0,0,0,0,infty,1,0") 3 7 1 ⟨0, 0, []⟩
          = .error .outOfFuel
      ∧ (∀ fuel, regionLoop atofDecimal (tokenizeComma "-infty,0,0,0,0,infty,1,0") 3 7 fuel
          ⟨0, 0, []⟩ ≠ .error .readPastEnd)
      ∧ (regions atofDecimal 3 7 (tokenizeComma "-infty,0,0,0,0,infty,1,0")).length = 2 :=
  have ht := regionLoop_terminates_safely atofDecimal
    (tokenizeComma "-infty,0,0,0,0,infty,1,0") 3 7 2 (by decide)
  ⟨by decide, by decide, ht.2.1 1 (by decide), ht.2.2.1, ht.2.2.2.2.1⟩

/-- C19: when the activation string exists and has no token, the function
ends in no error and returns a constraint with an empty list of case splits;
no assignment satisfies a case split of it, there being none. -/
theorem getActivationFunction_empty_string (tokenize : String → List String)
    (atof : String → ℚ) (activationInformation : NeuronIndex → Option String)
    (layer neuron : Int) (b f : Nat) (text : String)
    (h1 : activationInformation ⟨toUnsigned (layer - 1), toUnsigned neuron⟩ = some text)
    (h2 : tokenize text = []) :
    getActivationFunction tokenize atof activationInformation layer neuron b f = .ok ⟨[]⟩
      ∧ ∀ σ : Nat → ℚ, ¬ ∃ split ∈ (⟨[]⟩ : DisjunctionConstraint).disjuncts,
          PiecewiseLinearCaseSplit.holds split σ := by
  have h := getActivationFunction_ok tokenize atof activationInformation layer neuron
    b f text h1 (by simp [h2])
  rw [h2] at h
  refine ⟨by simpa [regions] using h, ?_⟩
  rintro σ ⟨split, hsplit, _⟩
  cases hsplit

/-- C19 at the empty string stored for neuron 1 of layer 0. -/
theorem getActivationFunction_empty_string_witness :
    otherInformation ⟨toUnsigned (1 - 1), toUnsigned 1⟩ = some ""
      ∧ tokenizeComma "" = []
      ∧ getActivationFunction tokenizeComma atofDecimal otherInformation 1 1 3 7 = .ok ⟨[]⟩
      ∧ ∀ σ : Nat → ℚ, ¬ ∃ split ∈ (⟨[]⟩ : DisjunctionConstraint).disjuncts,
          PiecewiseLinearCaseSplit.holds split σ :=
  have h := getActivationFunction_empty_string tokenizeComma atofDecimal otherInformation
    1 1 3 7 "" (by decide) (by decide)
  ⟨by decide, by decide, h.1, h.2⟩

/-- C20: the function looks the string up under
`NeuronIndex( layer - 1, neuron )`. A string stored under `(L, n)` is the one
decoded by the call with `layer = L + 1`; the call with `layer = L` ends with
the missing-activation error exactly when there is no entry under
`(L - 1, n)` (for `L = 0` the `unsigned` the `int` -1 converts to), whatever
is stored under `(L, n)`. -/
theorem getActivationFunction_layer_offset (tokenize : String → List String)
    (atof : String → ℚ) (activationInformation : NeuronIndex → Option String)
    (L n : Nat) (b f : Nat) (text : String)
    (hL : L + 1 < 2 ^ 31) (hn : n < 2 ^ 31)
    (h : activationInformation ⟨L, n⟩ = some text) :
    getActivationFunction tokenize atof activationInformation ((L + 1 : Nat) : Int) n b f
        = (if (tokenize text).length % 4 = 0 then .ok ⟨regions atof b f (tokenize text)⟩
            else .error (.malformedActivation text))
      ∧ (1 ≤ L →
          ((∃ l m, getActivationFunction tokenize atof activationInformation L n b f
              = .error (.missingActivation l m))
            ↔ activationInformation ⟨L - 1, n⟩ = none)
          ∧ (activationInformation ⟨L - 1, n⟩ = none →
              getActivationFunction tokenize atof activationInformation L n b f
                = .error (.missingActivation L n)))
      ∧ (L = 0 →
          ((∃ l m, getActivationFunction tokenize atof activationInformation L n b f
              = .error (.missingActivation l m))
            ↔ activationInformation ⟨4294967295, n⟩ = none)) := by
  have hidx : ∀ layer : Int, ∀ key : Nat, toUnsigned (layer - 1) = key →
      ((∃ l m, getActivationFunction tokenize atof activationInformation layer n b f
          = .error (.missingActivation l m))
        ↔ activationInformation ⟨key, n⟩ = none)
      ∧ (activationInformation ⟨key, n⟩ = none →
          getActivationFunction tokenize atof activationInformation layer n b f
            = .error (.missingActivation layer n)) := by
    intro layer key hkey
    have hmiss : activationInformation ⟨key, n⟩ = none →
        getActivationFunction tokenize atof activationInformation layer n b f
          = .error (.missingActivation layer n) := by
      intro hnone
      exact getActivationFunction_missing tokenize atof activationInformation layer n b f
        (by rw [hkey, toUnsigned_natCast n hn]; exact hnone)
    refine ⟨⟨?_, fun hnone => ⟨_, _, hmiss hnone⟩⟩, hmiss⟩
    rintro ⟨l, m, hres⟩
    cases hinfo : activationInformation ⟨key, n⟩ with
    | none => rfl
    | some t =>
      have hinfo' : activationInformation ⟨toUnsigned (layer - 1), toUnsigned (n : Int)⟩
          = some t := by
        rw [hkey, toUnsigned_natCast n hn]; exact hinfo
      by_cases hlen : (tokenize t).length % 4 = 0
      · rw [getActivationFunction_ok tokenize atof activationInformation layer n b f
          t hinfo' hlen] at hres
        cases hres
      · rw [getActivationFunction_malformed tokenize atof activationInformation layer
          n b f t hinfo' hlen] at hres
        cases hres
  have hentry : activationInformation
      ⟨toUnsigned (((L + 1 : Nat) : Int) - 1), toUnsigned (n : Int)⟩ = some text := by
    rw [toUnsigned_succ_pred L hL, toUnsigned_natCast n hn]; exact h
  refine ⟨?_, ?_, ?_⟩
  · split_ifs with hlen
    · exact getActivationFunction_ok tokenize atof activationInformation _ n b f text
        hentry hlen
    · exact getActivationFunction_malformed tokenize atof activationInformation _ n b f
        text hentry hlen
  · intro h1
    exact hidx (L : Int) (L - 1) (by unfold toUnsigned; omega)
  · intro h0
    exact (hidx (L : Int) 4294967295 (by unfold toUnsigned; omega)).1

/-- C20 at a table whose entry "0,1,1,0" is stored under `(2, 5)`: the
call with layer 3 decodes it, the call with layer 2 looks under `(1, 5)` and
ends with the missing-activation error. -/
theorem getActivationFunction_layer_offset_witness :
    2 + 1 < 2 ^ 31 ∧ 5 < 2 ^ 31
      ∧ otherInformation ⟨2, 5⟩ = some "0,1,1,0"
      ∧ getActivationFunction tokenizeComma atofDecimal otherInformation ((2 + 1 : Nat) : Int)
          (5 : Nat) 3 7
          = (if (tokenizeComma "0,1,1,0").length % 4 = 0
              then .ok ⟨regions atofDecimal 3 7 (tokenizeComma "0,1,1,0")⟩
              else .error (.malformedActivation "0,1,1,0"))
      ∧ getActivationFunction tokenizeComma atofDecimal otherInformation 3 5 3 7
          = .ok ⟨[⟨[⟨3, 0, .LB⟩, ⟨3, 1, .UB⟩], [⟨[⟨1, 7⟩, ⟨-1, 3⟩], 0⟩]⟩]⟩
      ∧ otherInformation ⟨2 - 1, 5⟩ = none
      ∧ getActivationFunction tokenizeComma atofDecimal otherInformation (2 : Nat) (5 : Nat) 3 7
          = .error (.missingActivation (2 : Nat) (5 : Nat)) :=
  have ht := getActivationFunction_layer_offset tokenizeComma atofDecimal otherInformation
    2 5 3 7 "0,1,1,0" (by decide) (by decide) (by decide)
  ⟨by decide, by decide, by decide, ht.1, by decide, by decide,
    (ht.2.1 (by decide)).2 (by decide)⟩

end Marabou
